import Mathlib

/-!
Verification of the steel-coil nesting optimizer against its specification.

The data model and the in-repository operations (material grouping, part
validation, CSV row generation, weight display) are embedded as executable
Lean definitions translated from the TypeScript source.  The nesting engine
itself is not implemented in the repository (the source delegates it to an
external service via a natural-language prompt), so the engine is modelled
from the specification, as marked on each such definition.

Numbers are embedded as rationals.
-/

namespace Nesting

/-! ### Decimal rendering of numbers, with injectivity

The source builds the material key by string interpolation of the grade and
the thickness.  We embed the numeric rendering as an injective function to
`List Char`, mirroring the standard rendering of a rational
(numerator, then a slash and the denominator when it is not 1). -/

/-- Decimal digits, fuel-driven so that the kernel can evaluate it (the
fuel strictly exceeds the number, hence always suffices). -/
def natCharsAux : ℕ → ℕ → List Char
  | 0, _ => []
  | fuel + 1, n =>
    if n < 10 then [Nat.digitChar n]
    else natCharsAux fuel (n / 10) ++ [Nat.digitChar (n % 10)]

/-- Decimal digits of a natural number, most significant first. -/
def natChars (n : ℕ) : List Char :=
  natCharsAux (n + 1) n

theorem natCharsAux_fuel_irrel :
    ∀ f₁ : ℕ, ∀ f₂ n : ℕ, n < f₁ → n < f₂ → natCharsAux f₁ n = natCharsAux f₂ n := by
  intro f₁
  induction f₁ with
  | zero => omega
  | succ f ih =>
    intro f₂ n h1 h2
    cases f₂ with
    | zero => omega
    | succ f' =>
      show natCharsAux (f + 1) n = natCharsAux (f' + 1) n
      unfold natCharsAux
      by_cases hn : n < 10
      · rw [if_pos hn, if_pos hn]
      · rw [if_neg hn, if_neg hn]
        have hd : n / 10 < n := Nat.div_lt_self (by omega) (by omega)
        rw [ih f' (n / 10) (by omega) (by omega)]

theorem natChars_eq (n : ℕ) :
    natChars n = if n < 10 then [Nat.digitChar n]
      else natChars (n / 10) ++ [Nat.digitChar (n % 10)] := by
  show natCharsAux (n + 1) n = _
  unfold natCharsAux
  by_cases hn : n < 10
  · rw [if_pos hn, if_pos hn]
  · rw [if_neg hn, if_neg hn]
    have hd : n / 10 < n := Nat.div_lt_self (by omega) (by omega)
    rw [natCharsAux_fuel_irrel n (n / 10 + 1) (n / 10) (by omega) (by omega)]
    rfl

theorem natChars_ne_nil (n : ℕ) : natChars n ≠ [] := by
  rw [natChars_eq]
  by_cases h : n < 10
  · rw [if_pos h]; simp
  · rw [if_neg h]; simp

theorem digitChar_inj : ∀ a < 10, ∀ b < 10, Nat.digitChar a = Nat.digitChar b → a = b := by
  decide

theorem digitChar_isDigit : ∀ a < 10, (Nat.digitChar a).isDigit = true := by
  decide

theorem natChars_length_pos (n : ℕ) : 0 < (natChars n).length :=
  List.length_pos.mpr (natChars_ne_nil n)

theorem natChars_all_digits (n : ℕ) : ∀ c ∈ natChars n, c.isDigit = true := by
  induction n using Nat.strong_induction_on with
  | _ n ih =>
    intro c hc
    rw [natChars_eq] at hc
    by_cases h : n < 10
    · rw [if_pos h] at hc
      simp only [List.mem_singleton] at hc
      subst hc
      exact digitChar_isDigit n h
    · rw [if_neg h] at hc
      rcases List.mem_append.mp hc with h1 | h2
      · exact ih (n / 10) (Nat.div_lt_self (by omega) (by omega)) c h1
      · simp only [List.mem_singleton] at h2
        subst h2
        exact digitChar_isDigit (n % 10) (Nat.mod_lt _ (by omega))

theorem natChars_injective : Function.Injective natChars := by
  intro a b
  induction a using Nat.strong_induction_on generalizing b with
  | _ a ih =>
    intro hab
    rw [natChars_eq a, natChars_eq b] at hab
    by_cases ha : a < 10 <;> by_cases hb : b < 10
    · rw [if_pos ha, if_pos hb] at hab
      simp only [List.cons.injEq, and_true] at hab
      exact digitChar_inj a ha b hb hab
    · exfalso
      rw [if_pos ha, if_neg hb] at hab
      have hlen := congrArg List.length hab
      have hpos := natChars_length_pos (b / 10)
      simp only [List.length_singleton, List.length_append] at hlen
      omega
    · exfalso
      rw [if_neg ha, if_pos hb] at hab
      have hlen := congrArg List.length hab
      have hpos := natChars_length_pos (a / 10)
      simp only [List.length_singleton, List.length_append] at hlen
      omega
    · rw [if_neg ha, if_neg hb] at hab
      have hlen : ([Nat.digitChar (a % 10)] : List Char).length =
          ([Nat.digitChar (b % 10)] : List Char).length := rfl
      obtain ⟨h1, h2⟩ := List.append_inj' hab hlen
      have hdiv : a / 10 = b / 10 :=
        ih (a / 10) (Nat.div_lt_self (by omega) (by omega)) h1
      have hmod : a % 10 = b % 10 := by
        simp only [List.cons.injEq, and_true] at h2
        exact digitChar_inj (a % 10) (Nat.mod_lt _ (by omega))
          (b % 10) (Nat.mod_lt _ (by omega)) h2
      omega

/-- Rendering of an integer: a leading minus sign for negative values. -/
def intChars (i : ℤ) : List Char :=
  if i < 0 then ('-' : Char) :: natChars (-i).toNat else natChars i.toNat

theorem head_natChars_isDigit (n : ℕ) (c : Char) (cs : List Char)
    (h : natChars n = c :: cs) : c.isDigit = true :=
  natChars_all_digits n c (h ▸ List.mem_cons_self c cs)

theorem minus_not_digit : (('-' : Char).isDigit = true) → False := by decide

theorem intChars_injective : Function.Injective intChars := by
  intro a b hab
  unfold intChars at hab
  by_cases ha : a < 0 <;> by_cases hb : b < 0
  · rw [if_pos ha, if_pos hb] at hab
    simp only [List.cons.injEq, true_and] at hab
    have := natChars_injective hab
    omega
  · exfalso
    rw [if_pos ha, if_neg hb] at hab
    cases hnb : natChars b.toNat with
    | nil => exact natChars_ne_nil _ hnb
    | cons x xs =>
      rw [hnb] at hab
      injection hab with hx hxs
      exact minus_not_digit (hx ▸ head_natChars_isDigit b.toNat x xs hnb)
  · exfalso
    rw [if_neg ha, if_pos hb] at hab
    cases hna : natChars a.toNat with
    | nil => exact natChars_ne_nil _ hna
    | cons x xs =>
      rw [hna] at hab
      injection hab with hx hxs
      exact minus_not_digit (hx.symm ▸ head_natChars_isDigit a.toNat x xs hna)
  · rw [if_neg ha, if_neg hb] at hab
    have := natChars_injective hab
    omega

theorem intChars_all_not_minus_imp_digit (i : ℤ) :
    ∀ c ∈ intChars i, c.isDigit = true ∨ c = ('-' : Char) := by
  intro c hc
  unfold intChars at hc
  split at hc
  · rcases List.mem_cons.mp hc with h | h
    · right; exact h
    · left; exact natChars_all_digits _ c h
  · left; exact natChars_all_digits _ c hc

theorem slash_not_digit : (('/' : Char).isDigit = true) → False := by decide

theorem slash_ne_minus : ('/' : Char) = ('-' : Char) → False := by decide

theorem slash_not_mem_intChars (i : ℤ) : ('/' : Char) ∉ intChars i := by
  intro h
  rcases intChars_all_not_minus_imp_digit i _ h with h1 | h1
  · exact slash_not_digit h1
  · exact slash_ne_minus h1

theorem slash_not_mem_natChars (n : ℕ) : ('/' : Char) ∉ natChars n := by
  intro h
  exact slash_not_digit (natChars_all_digits n _ h)

/-- Unique decomposition of a list at the first occurrence of a separator
that does not occur in either prefix. -/
theorem split_at_sep {α : Type} [DecidableEq α] (c : α) :
    ∀ (a₁ a₂ b₁ b₂ : List α), c ∉ a₁ → c ∉ a₂ →
      a₁ ++ c :: b₁ = a₂ ++ c :: b₂ → a₁ = a₂ ∧ b₁ = b₂ := by
  intro a₁
  induction a₁ with
  | nil =>
    intro a₂ b₁ b₂ h1 h2 heq
    cases a₂ with
    | nil => simpa using heq
    | cons x xs =>
      exfalso
      simp only [List.nil_append, List.cons_append, List.cons.injEq] at heq
      exact h2 (heq.1 ▸ List.mem_cons_self x xs)
  | cons x xs ih =>
    intro a₂ b₁ b₂ h1 h2 heq
    cases a₂ with
    | nil =>
      exfalso
      simp only [List.cons_append, List.nil_append, List.cons.injEq] at heq
      exact h1 (heq.1 ▸ List.mem_cons_self x xs)
    | cons y ys =>
      simp only [List.cons_append, List.cons.injEq] at heq
      have h1' : c ∉ xs := fun hm => h1 (List.mem_cons_of_mem x hm)
      have h2' : c ∉ ys := fun hm => h2 (List.mem_cons_of_mem y hm)
      obtain ⟨hx, hb⟩ := ih ys b₁ b₂ h1' h2' heq.2
      exact ⟨by rw [heq.1, hx], hb⟩

/-- Rendering of a rational, mirroring the standard format: the numerator
alone when the denominator is 1, otherwise numerator, slash, denominator. -/
def ratChars (q : ℚ) : List Char :=
  if q.den = 1 then intChars q.num
  else intChars q.num ++ ('/' : Char) :: natChars q.den

theorem ratChars_injective : Function.Injective ratChars := by
  intro a b hab
  unfold ratChars at hab
  split at hab <;> split at hab
  · rename_i ha hb
    have hnum := intChars_injective hab
    exact Rat.ext hnum (ha.trans hb.symm)
  · rename_i ha hb
    exfalso
    have : ('/' : Char) ∈ intChars a.num := by
      rw [hab]
      exact List.mem_append.mpr (Or.inr (List.mem_cons_self _ _))
    exact slash_not_mem_intChars _ this
  · rename_i ha hb
    exfalso
    have : ('/' : Char) ∈ intChars b.num := by
      rw [← hab]
      exact List.mem_append.mpr (Or.inr (List.mem_cons_self _ _))
    exact slash_not_mem_intChars _ this
  · rename_i ha hb
    obtain ⟨h1, h2⟩ := split_at_sep ('/' : Char) _ _ _ _
      (slash_not_mem_intChars a.num) (slash_not_mem_intChars b.num) hab
    exact Rat.ext (intChars_injective h1) (natChars_injective h2)

theorem underscore_not_digit : (('_' : Char).isDigit = true) → False := by decide

theorem underscore_ne_minus : ('_' : Char) = ('-' : Char) → False := by decide

theorem underscore_ne_slash : ('_' : Char) = ('/' : Char) → False := by decide

theorem underscore_not_mem_ratChars (q : ℚ) : ('_' : Char) ∉ ratChars q := by
  intro h
  unfold ratChars at h
  split at h
  · rcases intChars_all_not_minus_imp_digit _ _ h with h1 | h1
    · exact underscore_not_digit h1
    · exact underscore_ne_minus h1
  · rcases List.mem_append.mp h with h1 | h1
    · rcases intChars_all_not_minus_imp_digit _ _ h1 with h2 | h2
      · exact underscore_not_digit h2
      · exact underscore_ne_minus h2
    · rcases List.mem_cons.mp h1 with h2 | h2
      · exact underscore_ne_slash h2
      · exact underscore_not_digit (natChars_all_digits _ _ h2)

/-! ### Data model

These structures embed the TypeScript interfaces of the repository
(`Part`, `PartError`, `MaterialGroup`, `NestedPart`, `SheetLayout`,
`OptimizationGroupResult`, `OptimizationResult`).  JavaScript numbers
are embedded as rationals. -/

/-- A part record, as entered in the parts table. -/
structure Part where
  id : String
  width : ℚ
  length : ℚ
  quantity : ℚ
  thickness : ℚ
  grade : String
  projectName : String
deriving DecidableEq, Repr

/-- A part annotated by the preprocessor with its area and the oversize
flag, mirroring the intersection type used for `MaterialGroup.parts`. -/
structure AnnotPart extends Part where
  area : ℚ
  exceedsSheetLength : Bool
deriving DecidableEq, Repr

/-- A material group: all parts sharing a grade and a thickness. -/
structure MaterialGroup where
  materialKey : String
  thickness : ℚ
  grade : String
  parts : List AnnotPart
deriving DecidableEq, Repr, Inhabited

/-- A placed part on a sheet, as received from the optimization engine. -/
structure NestedPart where
  partId : String
  x : ℚ
  y : ℚ
  width : ℚ
  length : ℚ
  rotated : Bool
deriving DecidableEq, Repr

/-- One cut sheet of a group's layout. -/
structure SheetLayout where
  sheetNumber : ℕ
  width : ℚ
  length : ℚ
  nestedParts : List NestedPart
  wastePercentage : ℚ
deriving DecidableEq, Repr

/-- Per-group optimization result. -/
structure OptimizationGroupResult where
  materialKey : String
  thickness : ℚ
  grade : String
  totalPartsNested : ℕ
  totalSheetsUsed : ℕ
  averageWastePercentage : ℚ
  layouts : List SheetLayout
deriving DecidableEq, Repr

/-- Global summary of an optimization run. -/
structure OptimizationSummary where
  totalParts : ℕ
  totalPartsNested : ℕ
  numberOfGroups : ℕ
  overallWastePercentage : ℚ
deriving DecidableEq, Repr

/-- The full optimization result. -/
structure OptimizationResult where
  summary : OptimizationSummary
  resultsByGroup : List OptimizationGroupResult
deriving DecidableEq, Repr

/-! ### Material key and grouping (`preprocessData`, src/unnamed/part_001) -/

/-- The group key built by the source as the interpolation
of the grade, an underscore, the thickness and the suffix mm. -/
def materialKey (grade : String) (thickness : ℚ) : String :=
  grade ++ "_" ++ String.mk (ratChars thickness) ++ "mm"

theorem mem_mm_chars (c : Char) (h : c ∈ ("mm" : String).data) : c = ('m' : Char) := by
  have : ("mm" : String).data = [('m' : Char), ('m' : Char)] := rfl
  rw [this] at h
  rcases List.mem_cons.mp h with h1 | h1
  · exact h1
  · simpa using h1

theorem underscore_ne_m : ('_' : Char) = ('m' : Char) → False := by decide

/-- The material key determines the grade and the thickness: two parts get
the same key exactly when they agree on both. -/
theorem materialKey_inj (g₁ g₂ : String) (t₁ t₂ : ℚ)
    (h : materialKey g₁ t₁ = materialKey g₂ t₂) : g₁ = g₂ ∧ t₁ = t₂ := by
  unfold materialKey at h
  have hd := congrArg String.data h
  simp only [String.data_append] at hd
  have hrev : ((([('m' : Char), ('m' : Char)]) ++ (ratChars t₁).reverse) ++
      ('_' : Char) :: g₁.data.reverse) =
      ((([('m' : Char), ('m' : Char)]) ++ (ratChars t₂).reverse) ++
      ('_' : Char) :: g₂.data.reverse) := by
    have h2 := congrArg List.reverse hd
    simpa [List.reverse_append, List.append_assoc] using h2
  have hmm : ('_' : Char) ∈ ([('m' : Char), ('m' : Char)] : List Char) → False := by decide
  have hnot₁ : ('_' : Char) ∉ ([('m' : Char), ('m' : Char)]) ++ (ratChars t₁).reverse := by
    intro hm
    rcases List.mem_append.mp hm with h1 | h1
    · exact hmm h1
    · exact underscore_not_mem_ratChars t₁ (List.mem_reverse.mp h1)
  have hnot₂ : ('_' : Char) ∉ ([('m' : Char), ('m' : Char)]) ++ (ratChars t₂).reverse := by
    intro hm
    rcases List.mem_append.mp hm with h1 | h1
    · exact hmm h1
    · exact underscore_not_mem_ratChars t₂ (List.mem_reverse.mp h1)
  obtain ⟨hfront, hback⟩ := split_at_sep ('_' : Char) _ _ _ _ hnot₁ hnot₂ hrev
  constructor
  · apply String.ext
    have := congrArg List.reverse hback
    simpa using this
  · apply ratChars_injective
    have h2 := List.append_cancel_left hfront
    have := congrArg List.reverse h2
    simpa using this

/-- The annotated copy of a part produced by the grouping step. -/
def annotatePart (maxSheetLength : ℚ) (p : Part) : AnnotPart :=
  { toPart := p
    area := p.width * p.length
    exceedsSheetLength := decide (p.length > maxSheetLength) }

/-- One step of the grouping fold: push an (annotated) part into the group
with its key, creating the group at the end when the key is new. -/
def addPartToGroups (maxSheetLength : ℚ) (acc : List MaterialGroup) (p : Part) :
    List MaterialGroup :=
  let key := materialKey p.grade p.thickness
  let ap := annotatePart maxSheetLength p
  if acc.any (fun g => g.materialKey = key) then
    acc.map (fun g => if g.materialKey = key then { g with parts := g.parts ++ [ap] } else g)
  else
    acc ++ [{ materialKey := key, thickness := p.thickness, grade := p.grade, parts := [ap] }]

/-- Step 1 of `preprocessData`: group the parts by material and thickness
(insertion-ordered record, mirroring the `reduce` in the source). -/
def groupByMaterial (parts : List Part) (maxSheetLength : ℚ) : List MaterialGroup :=
  parts.foldl (addPartToGroups maxSheetLength) []

/-- The sort comparator of step 2 of `preprocessData`: width descending,
then area descending, then length descending.  `partLE a b` holds when `a`
may come before `b`. -/
def partLE (a b : AnnotPart) : Bool :=
  if a.width ≠ b.width then decide (b.width < a.width)
  else if a.area ≠ b.area then decide (b.area < a.area)
  else decide (b.length ≤ a.length)

/-- Step 2 of `preprocessData`: sort a group's parts (stable sort, as
guaranteed for JavaScript array sorting). -/
def sortGroupParts (g : MaterialGroup) : MaterialGroup :=
  { g with parts := g.parts.mergeSort partLE }

/-- The preprocessor of the source: group by material, then sort each
group's parts. -/
def preprocessData (parts : List Part) (maxSheetLength : ℚ) : List MaterialGroup :=
  (groupByMaterial parts maxSheetLength).map sortGroupParts

/-! ### Part validation (`validateParts`, src/App.tsx) -/

/-- Per-field validation errors of one part row, with the messages used by
the source. -/
structure PartError where
  width : Option String := none
  length : Option String := none
  quantity : Option String := none
  thickness : Option String := none
  grade : Option String := none
  projectName : Option String := none
deriving DecidableEq, Repr

/-- Validation of one part, field by field, as in `validateParts`. -/
def validatePart (p : Part) : PartError :=
  { width := if p.width ≤ 0 then some ("ต้องมากกว่า 0") else none
    length := if p.length ≤ 0 then some ("ต้องมากกว่า 0") else none
    quantity := if p.quantity.den ≠ 1 ∨ p.quantity ≤ 0 then some ("ต้องเป็นจำนวนเต็มบวก") else none
    thickness := if p.thickness ≤ 0 then some ("ต้องมากกว่า 0") else none
    grade := if p.grade = "" then some ("ต้องไม่ว่างเปล่า") else none
    projectName := if p.projectName = "" then some ("ต้องไม่ว่างเปล่า") else none }

/-- Whether a part's error record carries at least one error. -/
def PartError.hasAny (e : PartError) : Bool :=
  e.width.isSome || e.length.isSome || e.quantity.isSome ||
    e.thickness.isSome || e.grade.isSome || e.projectName.isSome

/-- The error table built by `validateParts`: one entry per offending part,
keyed by the part id, in input order. -/
def validationErrors (parts : List Part) : List (String × PartError) :=
  parts.filterMap (fun p =>
    let e := validatePart p
    if e.hasAny then some (p.id, e) else none)

/-- The boolean verdict of `validateParts`. -/
def validateParts (parts : List Part) : Bool :=
  (validationErrors parts).isEmpty

/-! ### The nesting engine

Modelled from the spec: the repository does not implement the engine — the
source's `runOptimization` serializes the material groups and the user
parameters into a natural-language prompt for an external service.  The
definitions below embed the deterministic algorithm the specification
defines for that missing engine (components 4.2-4.6 of the spec). -/

/-- Modelled from the spec: the engine parameter record of the engine
boundary contract (the missing engine's input), with the candidate widths
already an ordered list of numbers and the target utilization exposed as a
parameter. -/
structure EngineParams where
  maxSheetLength : ℚ
  kerf : ℚ
  candidateCoilWidths : List ℚ
  rollWeightMin : ℚ
  rollWeightMax : ℚ
  targetUtilization : ℚ
deriving DecidableEq, Repr

/-- The steel density constant of the weight formula. -/
def steelDensityFactor : ℚ := 0.00000785

/-- Modelled from the spec: the weight formula of the weight governor,
weight in kg from dimensions in mm. -/
def sheetWeightKg (width length thickness : ℚ) : ℚ :=
  width * length * thickness * steelDensityFactor

/-- Horizontal extent of a placed part (its length when rotated 90 degrees). -/
def effWidth (np : NestedPart) : ℚ := if np.rotated then np.length else np.width

/-- Vertical extent of a placed part (its width when rotated 90 degrees). -/
def effLength (np : NestedPart) : ℚ := if np.rotated then np.width else np.length

/-- Two placements are kerf-separated when their bounding boxes, each
inflated by half the kerf on every side, have disjoint interiors: the two
parts clear each other by at least the kerf along some axis. -/
def sepKerf (kerf : ℚ) (a b : NestedPart) : Prop :=
  a.x + effWidth a + kerf ≤ b.x ∨ b.x + effWidth b + kerf ≤ a.x ∨
  a.y + effLength a + kerf ≤ b.y ∨ b.y + effLength b + kerf ≤ a.y

instance (kerf : ℚ) (a b : NestedPart) : Decidable (sepKerf kerf a b) := by
  unfold sepKerf
  exact inferInstance

theorem sepKerf_symm (kerf : ℚ) (a b : NestedPart) (h : sepKerf kerf a b) :
    sepKerf kerf b a := by
  unfold sepKerf at h ⊢
  tauto

/-- An open sheet under construction: the chosen coil width, the length
grown so far, and the placements already accepted (most recent first). -/
structure OpenSheet where
  width : ℚ
  length : ℚ
  placed : List NestedPart
deriving DecidableEq, Repr

/-- A single unit instance of a part, after quantity expansion. -/
structure PartInst where
  pid : String
  w : ℚ
  l : ℚ
deriving DecidableEq, Repr

/-- Modelled from the spec: the margin added past the last placed part when
the sheet length grows.  The spec leaves its size open, so the model fixes
it at zero. -/
def sheetMargin : ℚ := 0

/-- The sheet length after a tentative placement: the maximum of the
current length and the far edge of the new part plus the margin. -/
def newLengthAfter (s : OpenSheet) (np : NestedPart) : ℚ :=
  max s.length (np.y + effLength np + sheetMargin)

/-- Modelled from the spec: the combined geometric and weight admissibility
check a tentative placement must pass (packer constraints plus the weight
governor's maximum-weight rule): nonnegative coordinates, within the coil
width, extended length within the absolute ceiling, projected weight within
the maximum, and kerf separation from every part already placed. -/
def fitsOn (P : EngineParams) (thickness : ℚ) (s : OpenSheet) (np : NestedPart) : Bool :=
  decide (0 ≤ np.x) && decide (0 ≤ np.y) &&
  decide (np.x + effWidth np ≤ s.width) &&
  decide (newLengthAfter s np ≤ P.maxSheetLength) &&
  decide (sheetWeightKg s.width (newLengthAfter s np) thickness ≤ P.rollWeightMax) &&
  s.placed.all (fun q => decide (sepKerf P.kerf np q))

/-- Accept a placement: record it and extend the sheet length. -/
def place (s : OpenSheet) (np : NestedPart) : OpenSheet :=
  { s with length := newLengthAfter s np, placed := np :: s.placed }

/-- Modelled from the spec: the candidate bottom-left positions tried for
the next part — the origin, and the right edge and the far edge of every
placed part, each offset by the kerf. -/
def candidatePoints (P : EngineParams) (s : OpenSheet) : List (ℚ × ℚ) :=
  (0, 0) :: s.placed.flatMap (fun q =>
    [(q.x + effWidth q + P.kerf, q.y), (q.x, q.y + effLength q + P.kerf)])

/-- All placements of one part instance in one orientation over a list of
candidate positions. -/
def placementsFor (inst : PartInst) (rot : Bool) (pts : List (ℚ × ℚ)) : List NestedPart :=
  pts.map (fun pt =>
    { partId := inst.pid, x := pt.1, y := pt.2, width := inst.w, length := inst.l, rotated := rot })

/-- Both orientations of a part instance over all candidate positions, the
original orientation listed first. -/
def allAttempts (P : EngineParams) (s : OpenSheet) (inst : PartInst) : List NestedPart :=
  placementsFor inst false (candidatePoints P s) ++
    placementsFor inst true (candidatePoints P s)

/-- Strictly better bottom-left position: lower y, then lower x. -/
def keyLt (a b : NestedPart) : Bool :=
  decide (a.y < b.y) || (decide (a.y = b.y) && decide (a.x < b.x))

/-- The first minimal element under `keyLt` (pinning tie-breaks: an attempt
replaces the current best only when strictly better). -/
def chooseBest (l : List NestedPart) : Option NestedPart :=
  l.foldl (fun acc np =>
    match acc with
    | none => some np
    | some cur => if keyLt np cur then some np else acc) none

/-- Modelled from the spec: one placement attempt of the packer — the
admissible attempt at the lowest y then lowest x, original orientation
preferred on ties; `none` when no position admits the part. -/
def tryPlacePart (P : EngineParams) (thickness : ℚ) (s : OpenSheet) (inst : PartInst) :
    Option OpenSheet :=
  match chooseBest ((allAttempts P s inst).filter (fitsOn P thickness s)) with
  | none => none
  | some np => some (place s np)

/-- Modelled from the spec: one filling pass of the packer over the pending
parts in sorted order; parts that do not fit become candidates for the next
sheet, in their original order. -/
def fillSheet (P : EngineParams) (thickness : ℚ) :
    OpenSheet → List PartInst → OpenSheet × List PartInst
  | s, [] => (s, [])
  | s, i :: rest =>
    match tryPlacePart P thickness s i with
    | some s' => fillSheet P thickness s' rest
    | none =>
      let r := fillSheet P thickness s rest
      (r.1, i :: r.2)

/-- Modelled from the spec: the sheet sequencing loop — fill the open sheet,
close it, and start a new sheet with the leftovers; a part that cannot be
placed even on an empty sheet is reported unplaced.  The fuel bounds the
number of sheets (the engine supplies enough for one sheet per part). -/
def packSheets (P : EngineParams) (thickness : ℚ) (w : ℚ) :
    ℕ → List PartInst → List OpenSheet × List PartInst
  | 0, insts => ([], insts)
  | _ + 1, [] => ([], [])
  | fuel + 1, i :: tl =>
    let r := fillSheet P thickness ⟨w, 0, []⟩ (i :: tl)
    if r.1.placed.isEmpty then
      let r2 := packSheets P thickness w fuel tl
      (r2.1, i :: r2.2)
    else
      let r2 := packSheets P thickness w fuel r.2
      (r.1 :: r2.1, r2.2)

/-- Total area of the parts placed on a sheet. -/
def placedArea (s : OpenSheet) : ℚ :=
  (s.placed.map (fun np => np.width * np.length)).sum

/-- Area of a sheet. -/
def sheetArea (s : OpenSheet) : ℚ := s.width * s.length

/-- Utilization of a sheet: placed area over sheet area. -/
def utilizationOf (s : OpenSheet) : ℚ := placedArea s / sheetArea s

/-- Aggregate waste of a list of sheets: one minus total placed area over
total sheet area. -/
def wasteOf (sheets : List OpenSheet) : ℚ :=
  1 - (sheets.map placedArea).sum / (sheets.map sheetArea).sum

/-- Pack a group's instances at one candidate width. -/
def packAtWidth (P : EngineParams) (thickness w : ℚ) (insts : List PartInst) :
    List OpenSheet × List PartInst :=
  packSheets P thickness w (insts.length + 1) insts

/-- Modelled from the spec: the width selector — evaluate every candidate
width in the given order, keep the one of minimal aggregate waste, the
first minimal result winning ties. -/
def selectWidth (P : EngineParams) (thickness : ℚ) (insts : List PartInst) :
    Option (ℚ × (List OpenSheet × List PartInst)) :=
  P.candidateCoilWidths.foldl (fun best w =>
    let r := packAtWidth P thickness w insts
    match best with
    | none => some (w, r)
    | some b => if wasteOf r.1 < wasteOf b.2.1 then some (w, r) else best) none

/-- Descending-area order used by the balancer when it scans the last
sheet's parts. -/
def areaDesc (a b : NestedPart) : Bool :=
  decide (b.width * b.length ≤ a.width * a.length)

/-- The unit instance a placement came from. -/
def instOf (np : NestedPart) : PartInst := ⟨np.partId, np.width, np.length⟩

/-- Modelled from the spec: try to move one of the given placements (taken
from the last sheet, in the order given) into the target sheet, re-running
the placement check locally. -/
def tryMoveInto (P : EngineParams) (thickness : ℚ) (target : OpenSheet) :
    List NestedPart → Option (OpenSheet × NestedPart)
  | [] => none
  | np :: rest =>
    match tryPlacePart P thickness target (instOf np) with
    | some target' => some (target', np)
    | none => tryMoveInto P thickness target rest

/-- Modelled from the spec: repeatedly move parts from the last sheet into
one under-utilized target sheet, in descending area order, while feasible. -/
def fillFromLast (P : EngineParams) (thickness : ℚ) :
    ℕ → OpenSheet → OpenSheet → OpenSheet × OpenSheet
  | 0, target, last => (target, last)
  | fuel + 1, target, last =>
    match tryMoveInto P thickness target (last.placed.mergeSort areaDesc) with
    | some r =>
      fillFromLast P thickness fuel r.1 { last with placed := last.placed.erase r.2 }
    | none => (target, last)

/-- Modelled from the spec: one balancing pass over the non-last sheets in
order, feeding each under-utilized sheet from the last sheet; the flag
reports whether any move happened. -/
def balancePass (P : EngineParams) (thickness : ℚ) :
    List OpenSheet → OpenSheet → List OpenSheet × OpenSheet × Bool
  | [], last => ([], last, false)
  | s :: rest, last =>
    if utilizationOf s < P.targetUtilization then
      let r := fillFromLast P thickness last.placed.length s last
      let moved := decide (r.1.placed.length ≠ s.placed.length)
      let r2 := balancePass P thickness rest r.2
      (r.1 :: r2.1, r2.2.1, moved || r2.2.2)
    else
      let r2 := balancePass P thickness rest last
      (s :: r2.1, r2.2.1, r2.2.2)

/-- Modelled from the spec: iterate balancing passes until a pass moves
nothing or the iteration cap is reached. -/
def balanceLoop (P : EngineParams) (thickness : ℚ) :
    ℕ → List OpenSheet → OpenSheet → List OpenSheet × OpenSheet
  | 0, init, last => (init, last)
  | fuel + 1, init, last =>
    let r := balancePass P thickness init last
    if r.2.2 then balanceLoop P thickness fuel r.1 r.2.1 else (r.1, r.2.1)

/-- Modelled from the spec: the inter-sheet balancer — move parts from the
last (buffer) sheet into earlier under-utilized sheets until no move
improves the state or the cap is reached. -/
def balanceSheets (P : EngineParams) (thickness : ℚ) (sheets : List OpenSheet) :
    List OpenSheet :=
  match sheets.reverse with
  | [] => []
  | last :: revInit =>
    let r := balanceLoop P thickness (last.placed.length + 1) revInit.reverse last
    r.1 ++ [r.2]

/-- Modelled from the spec: the structured warnings the engine attaches to
its result in place of thrown failures. -/
inductive EngineWarning where
  | unplaceablePart (partId : String)
  | subMinimumWeight (materialKey : String) (sheetNumber : ℕ)
deriving DecidableEq, Repr

/-- Quantity expansion: each part yields `quantity` identical unit
instances. -/
def expandInstances (parts : List AnnotPart) : List PartInst :=
  parts.flatMap (fun ap => List.replicate ap.quantity.num.toNat ⟨ap.id, ap.width, ap.length⟩)

/-- Assemble one closed sheet into the serializable layout record
(placements reported in placement order). -/
def toLayout (idx : ℕ) (s : OpenSheet) : SheetLayout :=
  { sheetNumber := idx + 1
    width := s.width
    length := s.length
    nestedParts := s.placed.reverse
    wastePercentage := 1 - placedArea s / sheetArea s }

/-- Modelled from the spec: the sub-minimum-weight flags of the weight
governor, one per non-last sheet whose weight falls short of the roll
minimum. -/
def groupSubMinWarnings (P : EngineParams) (key : String) (thickness : ℚ)
    (layouts : List SheetLayout) : List EngineWarning :=
  layouts.dropLast.filterMap (fun l =>
    if sheetWeightKg l.width l.length thickness < P.rollWeightMin then
      some (EngineWarning.subMinimumWeight key l.sheetNumber)
    else none)

/-- The unplaceable-part warnings of a group's oversize parts. -/
def oversizeWarningsOf (g : MaterialGroup) : List EngineWarning :=
  (expandInstances (g.parts.filter (fun ap => ap.exceedsSheetLength))).map
    (fun i => EngineWarning.unplaceablePart i.pid)

/-- The layouts of a group after balancing: the closed sheets, numbered in
order. -/
def groupLayouts (P : EngineParams) (g : MaterialGroup)
    (sheets : List OpenSheet) : List SheetLayout :=
  (balanceSheets P g.thickness sheets).mapIdx toLayout

/-- Modelled from the spec: run one material group — exclude the oversize
parts, expand quantities, select a width, pack, balance, and assemble the
group result together with its warnings. -/
def runGroup (P : EngineParams) (g : MaterialGroup) :
    OptimizationGroupResult × List EngineWarning :=
  match selectWidth P g.thickness
      (expandInstances (g.parts.filter (fun ap => !ap.exceedsSheetLength))) with
  | none =>
    ({ materialKey := g.materialKey, thickness := g.thickness, grade := g.grade,
       totalPartsNested := 0, totalSheetsUsed := 0, averageWastePercentage := 0,
       layouts := [] },
     oversizeWarningsOf g)
  | some r =>
    ({ materialKey := g.materialKey, thickness := g.thickness, grade := g.grade,
       totalPartsNested :=
         ((groupLayouts P g r.2.1).map (fun l => l.nestedParts.length)).sum,
       totalSheetsUsed := (groupLayouts P g r.2.1).length,
       averageWastePercentage :=
         ((groupLayouts P g r.2.1).map (fun l => l.wastePercentage)).sum /
           (groupLayouts P g r.2.1).length,
       layouts := groupLayouts P g r.2.1 },
     oversizeWarningsOf g ++
       r.2.2.map (fun i => EngineWarning.unplaceablePart i.pid) ++
       groupSubMinWarnings P g.materialKey g.thickness (groupLayouts P g r.2.1))

/-- The engine's full output: the serializable result plus the structured
warnings. -/
structure EngineOutput where
  result : OptimizationResult
  warnings : List EngineWarning
deriving DecidableEq, Repr

/-- Modelled from the spec: the engine — a pure function of the parts and
the parameters, composing the in-source preprocessor with the per-group
pipeline and the result assembler. -/
def runOptimizationModel (parts : List Part) (P : EngineParams) : EngineOutput :=
  let groups := preprocessData parts P.maxSheetLength
  let groupRuns := groups.map (runGroup P)
  let groupResults := groupRuns.map Prod.fst
  let allLayouts := groupResults.flatMap (fun r => r.layouts)
  { result :=
    { summary :=
      { totalParts := (parts.map (fun p => p.quantity.num.toNat)).sum
        totalPartsNested := (groupResults.map (fun r => r.totalPartsNested)).sum
        numberOfGroups := groups.length
        overallWastePercentage := 1 -
          ((allLayouts.map (fun l =>
            (l.nestedParts.map (fun np => np.width * np.length)).sum)).sum) /
          ((allLayouts.map (fun l => l.width * l.length)).sum) }
      resultsByGroup := groupResults }
    warnings := (groupRuns.map Prod.snd).flatten }

/-- The run entry point of the application: validate first, start the
engine only when validation passes, surface the error table otherwise. -/
def handleRunOptimization (parts : List Part) (P : EngineParams) :
    Except (List (String × PartError)) EngineOutput :=
  if validateParts parts then Except.ok (runOptimizationModel parts P)
  else Except.error (validationErrors parts)

/-! ### Weight display (src/components/ResultsDisplay.tsx, src/unnamed/part_002) -/

/-- The steel density constant used by the result card and the document
exporter, in kg per cubic metre. -/
def steelDensityKgPerM3 : ℚ := 7850

/-- The sheet weight as computed for display and export: dimensions
converted to metres, times the density in kg per cubic metre. -/
def displayWeightKg (width length thickness : ℚ) : ℚ :=
  (width / 1000) * (length / 1000) * (thickness / 1000) * steelDensityKgPerM3

/-! ### Parameter sanity (engine boundary contract) -/

/-- The engine boundary contract on parameters: positive length ceiling,
nonnegative kerf, positive minimal roll weight not above the maximum. -/
def EngineParams.Valid (P : EngineParams) : Prop :=
  0 < P.maxSheetLength ∧ 0 ≤ P.kerf ∧ 0 < P.rollWeightMin ∧
    P.rollWeightMin ≤ P.rollWeightMax

instance (P : EngineParams) : Decidable P.Valid := by
  unfold EngineParams.Valid
  exact inferInstance

/-! ### Concrete fixtures used by the witnesses -/

/-- The default parameters of the application, candidate widths restricted
to a single entry for concreteness. -/
def demoParams : EngineParams :=
  { maxSheetLength := 18000, kerf := 5, candidateCoilWidths := [1500],
    rollWeightMin := 4000, rollWeightMax := 5500, targetUtilization := 85 / 100 }

/-- A small concrete input: one valid part row. -/
def demoParts : List Part :=
  [{ id := "p1", width := 1000, length := 2500, quantity := 2, thickness := 2,
     grade := "SS400", projectName := "A" }]

/-- A part whose length exceeds the demo length ceiling. -/
def oversizePart : Part :=
  { id := "p9", width := 800, length := 20000, quantity := 1, thickness := 3,
    grade := "A36", projectName := "B" }

/-- An input mixing a regular part with the oversize one. -/
def mixedParts : List Part := demoParts ++ [oversizePart]

/-- A part with valid geometry and quantity but an empty grade. -/
def emptyGradePart : Part :=
  { id := "r1", width := 100, length := 200, quantity := 1, thickness := 3,
    grade := "", projectName := "B" }

/-- A part with a non-positive width. -/
def badWidthPart : Part :=
  { id := "w1", width := 0, length := 200, quantity := 1, thickness := 3,
    grade := "S", projectName := "B" }

/-! ### Claim theorems: determinism, weight formula, validation -/

/-- C1: two runs of the engine on identical parts and parameters yield
identical results — the engine is a pure function of its two inputs, with
no state carried across invocations. -/
theorem runOptimization_deterministic (parts : List Part) (P : EngineParams)
    (r₁ r₂ : EngineOutput) (h₁ : r₁ = runOptimizationModel parts P)
    (h₂ : r₂ = runOptimizationModel parts P) : r₁ = r₂ :=
  h₁.trans h₂.symm

/-- Witness for C1 at a concrete input. -/
theorem runOptimization_deterministic_witness :
    runOptimizationModel demoParts demoParams = runOptimizationModel demoParts demoParams :=
  runOptimization_deterministic demoParts demoParams _ _ rfl rfl

/-- C8: the weight computed for display, dimensions over 1000 times 7850,
equals the spec's formula, the product of the raw dimensions times
0.00000785, for all rational dimensions (hence for all nonnegative ones). -/
theorem displayWeight_eq_specWeight (w l t : ℚ) :
    displayWeightKg w l t = sheetWeightKg w l t := by
  unfold displayWeightKg sheetWeightKg steelDensityKgPerM3 steelDensityFactor
  norm_num
  ring

/-- The offending-part criterion of the InputInvalid error kind:
non-positive width, length or thickness, or a quantity that is not a
positive integer. -/
def GeomInvalid (p : Part) : Prop :=
  p.width ≤ 0 ∨ p.length ≤ 0 ∨ p.thickness ≤ 0 ∨ p.quantity.den ≠ 1 ∨ p.quantity ≤ 0

instance (p : Part) : Decidable (GeomInvalid p) := by
  unfold GeomInvalid
  exact inferInstance

theorem geomInvalid_hasAny (p : Part) (h : GeomInvalid p) :
    (validatePart p).hasAny = true := by
  unfold GeomInvalid at h
  unfold PartError.hasAny validatePart
  rcases h with h | h | h | h | h
  · rw [if_pos h]; simp
  · rw [if_pos h]; simp
  · rw [if_pos h]
    simp only [Option.isSome_some, Bool.true_or, Bool.or_true]
  · rw [if_pos (Or.inl h)]; simp
  · rw [if_pos (Or.inr h)]; simp

theorem offender_reported (parts : List Part) (q : Part) (hq : q ∈ parts)
    (hbad : GeomInvalid q) : q.id ∈ (validationErrors parts).map Prod.fst := by
  have : (q.id, validatePart q) ∈ validationErrors parts := by
    unfold validationErrors
    apply List.mem_filterMap.mpr
    refine ⟨q, hq, ?_⟩
    simp only [geomInvalid_hasAny q hbad, if_pos]
  exact List.mem_map.mpr ⟨(q.id, validatePart q), this, rfl⟩

/-- C6: an input containing a part with non-positive width, length or
thickness, or a non-positive-integer quantity, fails validation: the run
returns the error table instead of starting the engine (so no grouping
occurs), and the table reports the id of every offending part, not just
the first. -/
theorem invalid_input_fails_before_grouping (parts : List Part) (P : EngineParams)
    (p : Part) (hp : p ∈ parts) (hbad : GeomInvalid p) :
    handleRunOptimization parts P = Except.error (validationErrors parts) ∧
    ∀ q ∈ parts, GeomInvalid q → q.id ∈ (validationErrors parts).map Prod.fst := by
  constructor
  · have hmem : p.id ∈ (validationErrors parts).map Prod.fst :=
      offender_reported parts p hp hbad
    have hne : validationErrors parts ≠ [] := by
      intro h0
      rw [h0] at hmem
      simp at hmem
    unfold handleRunOptimization validateParts
    rw [if_neg]
    simp only [List.isEmpty_iff]
    exact hne
  · intro q hq hbadq
    exact offender_reported parts q hq hbadq

/-- Witness for C6 at a concrete input: a zero-width part. -/
theorem invalid_input_fails_before_grouping_witness :
    badWidthPart ∈ [badWidthPart] ∧ GeomInvalid badWidthPart ∧
    (handleRunOptimization [badWidthPart] demoParams =
        Except.error (validationErrors [badWidthPart]) ∧
      ∀ q ∈ [badWidthPart], GeomInvalid q →
        q.id ∈ (validationErrors [badWidthPart]).map Prod.fst) :=
  ⟨by decide, by decide,
    invalid_input_fails_before_grouping [badWidthPart] demoParams badWidthPart
      (by decide) (by decide)⟩

/-- C10: the implementation's validation is strictly stronger than the
spec's InputInvalid criterion — a concrete part with positive width,
length, thickness and a positive integer quantity, but an empty grade,
still fails validation, and the run is not started. -/
theorem validation_stricter_than_spec :
    0 < emptyGradePart.width ∧ 0 < emptyGradePart.length ∧
    0 < emptyGradePart.thickness ∧ emptyGradePart.quantity.den = 1 ∧
    0 < emptyGradePart.quantity ∧
    handleRunOptimization [emptyGradePart] demoParams =
      Except.error (validationErrors [emptyGradePart]) ∧
    validationErrors [emptyGradePart] ≠ [] :=
  ⟨by decide, by decide, by decide, by decide, by decide, by rfl, by decide⟩

/-! ### Claim theorems: sort order within a group -/

/-- The descending lexicographic order of the group sort: wider first, then
larger area, then longer. -/
def PartDescOrder (a b : AnnotPart) : Prop :=
  b.width < a.width ∨ (a.width = b.width ∧
    (b.area < a.area ∨ (a.area = b.area ∧ b.length ≤ a.length)))

theorem partLE_iff (a b : AnnotPart) : partLE a b = true ↔ PartDescOrder a b := by
  unfold partLE PartDescOrder
  by_cases hw : a.width = b.width
  · rw [if_neg (by simpa using hw)]
    by_cases ha : a.area = b.area
    · rw [if_neg (by simpa using ha)]
      simp only [decide_eq_true_eq]
      constructor
      · intro h; exact Or.inr ⟨hw, Or.inr ⟨ha, h⟩⟩
      · intro h
        rcases h with h | ⟨h1, h | ⟨h2, h3⟩⟩
        · rw [hw] at h
          exact absurd h (lt_irrefl _)
        · rw [ha] at h
          exact absurd h (lt_irrefl _)
        · exact h3
    · rw [if_pos (by simpa using ha)]
      simp only [decide_eq_true_eq]
      constructor
      · intro h; exact Or.inr ⟨hw, Or.inl h⟩
      · intro h
        rcases h with h | ⟨h1, h | ⟨h2, h3⟩⟩
        · exact absurd h (by rw [hw]; exact lt_irrefl _)
        · exact h
        · exact absurd h2 ha
  · rw [if_pos (by simpa using hw)]
    simp only [decide_eq_true_eq]
    constructor
    · intro h; exact Or.inl h
    · intro h
      rcases h with h | ⟨h1, h2⟩
      · exact h
      · exact absurd h1 hw

theorem partLE_trans (a b c : AnnotPart) (h₁ : partLE a b) (h₂ : partLE b c) :
    partLE a c := by
  rw [partLE_iff] at h₁ h₂ ⊢
  unfold PartDescOrder at h₁ h₂ ⊢
  rcases h₁ with h₁ | ⟨hw₁, h₁⟩
  · rcases h₂ with h₂ | ⟨hw₂, h₂⟩
    · exact Or.inl (h₂.trans h₁)
    · exact Or.inl (hw₂ ▸ h₁)
  · rcases h₂ with h₂ | ⟨hw₂, h₂⟩
    · exact Or.inl (by rw [hw₁]; exact h₂)
    · refine Or.inr ⟨hw₁.trans hw₂, ?_⟩
      rcases h₁ with h₁ | ⟨ha₁, h₁⟩
      · rcases h₂ with h₂ | ⟨ha₂, h₂⟩
        · exact Or.inl (h₂.trans h₁)
        · exact Or.inl (ha₂ ▸ h₁)
      · rcases h₂ with h₂ | ⟨ha₂, h₂⟩
        · exact Or.inl (by rw [ha₁]; exact h₂)
        · exact Or.inr ⟨ha₁.trans ha₂, h₂.trans h₁⟩

theorem partLE_total (a b : AnnotPart) : partLE a b || partLE b a := by
  rcases lt_trichotomy a.width b.width with hw | hw | hw
  · apply Bool.or_eq_true_iff.mpr
    exact Or.inr ((partLE_iff b a).mpr (Or.inl hw))
  · rcases lt_trichotomy a.area b.area with ha | ha | ha
    · apply Bool.or_eq_true_iff.mpr
      exact Or.inr ((partLE_iff b a).mpr (Or.inr ⟨hw.symm, Or.inl ha⟩))
    · rcases le_total b.length a.length with hl | hl
      · apply Bool.or_eq_true_iff.mpr
        exact Or.inl ((partLE_iff a b).mpr (Or.inr ⟨hw, Or.inr ⟨ha, hl⟩⟩))
      · apply Bool.or_eq_true_iff.mpr
        exact Or.inr ((partLE_iff b a).mpr (Or.inr ⟨hw.symm, Or.inr ⟨ha.symm, hl⟩⟩))
    · apply Bool.or_eq_true_iff.mpr
      exact Or.inl ((partLE_iff a b).mpr (Or.inr ⟨hw, Or.inl ha⟩))
  · apply Bool.or_eq_true_iff.mpr
    exact Or.inl ((partLE_iff a b).mpr (Or.inl hw))

/-- C5: within every group produced by the grouper, the parts are in
stable descending order: width first, then area, then length.  The sorted
group is the one the preprocessor emits, its parts are a permutation of
the group's insertion-order parts, and any pair already in order in the
insertion sequence keeps its relative order (stability). -/
theorem groups_sorted_stably (parts : List Part) (maxSheetLength : ℚ) :
    ∀ gU ∈ groupByMaterial parts maxSheetLength,
      sortGroupParts gU ∈ preprocessData parts maxSheetLength ∧
      (sortGroupParts gU).parts.Pairwise PartDescOrder ∧
      (sortGroupParts gU).parts.Perm gU.parts ∧
      (∀ a b : AnnotPart, partLE a b = true → List.Sublist [a, b] gU.parts →
        List.Sublist [a, b] ((sortGroupParts gU).parts)) := by
  intro gU hgU
  refine ⟨List.mem_map.mpr ⟨gU, hgU, rfl⟩, ?_, ?_, ?_⟩
  · have hs : (gU.parts.mergeSort partLE).Pairwise (fun a b => partLE a b) :=
      List.sorted_mergeSort
        (fun a b c => partLE_trans a b c) (fun a b => partLE_total a b) gU.parts
    exact hs.imp (fun h => (partLE_iff _ _).mp h)
  · exact List.mergeSort_perm gU.parts partLE
  · intro a b hab hsub
    exact List.pair_sublist_mergeSort
      (fun a b c => partLE_trans a b c) (fun a b => partLE_total a b) hab hsub

/-! ### Engine invariants: sheet validity through packing and balancing -/

/-- A placement lies inside its sheet. -/
def InBounds (s : OpenSheet) (np : NestedPart) : Prop :=
  0 ≤ np.x ∧ 0 ≤ np.y ∧ np.x + effWidth np ≤ s.width ∧
    np.y + effLength np ≤ s.length

/-- Validity of an open sheet: length within the ceiling, weight within the
maximum, every placement in bounds, and all placements pairwise
kerf-separated. -/
def SheetOk (P : EngineParams) (thickness : ℚ) (s : OpenSheet) : Prop :=
  s.length ≤ P.maxSheetLength ∧
  sheetWeightKg s.width s.length thickness ≤ P.rollWeightMax ∧
  (∀ np ∈ s.placed, InBounds s np) ∧
  s.placed.Pairwise (sepKerf P.kerf)

/-- Validity plus provenance: the sheet has the selected width and every
placement's part id comes from the allowed id pool. -/
def SheetGood (P : EngineParams) (thickness w : ℚ) (pids : List String)
    (s : OpenSheet) : Prop :=
  SheetOk P thickness s ∧ s.width = w ∧ ∀ np ∈ s.placed, np.partId ∈ pids

theorem chooseBest_mem :
    ∀ (l : List NestedPart) (acc : Option NestedPart) (np : NestedPart),
      l.foldl (fun acc np =>
        match acc with
        | none => some np
        | some cur => if keyLt np cur then some np else acc) acc = some np →
      np ∈ l ∨ acc = some np := by
  intro l
  induction l with
  | nil =>
    intro acc np h
    exact Or.inr h
  | cons x t ih =>
    intro acc np h
    rcases ih _ np h with h1 | h1
    · exact Or.inl (List.mem_cons_of_mem x h1)
    · cases acc with
      | none =>
        simp only at h1
        injection h1 with h1
        exact Or.inl (h1 ▸ List.mem_cons_self x t)
      | some cur =>
        simp only at h1
        by_cases hk : keyLt x cur
        · rw [if_pos hk] at h1
          injection h1 with h1
          exact Or.inl (h1 ▸ List.mem_cons_self x t)
        · rw [if_neg hk] at h1
          exact Or.inr h1

theorem fitsOn_spec (P : EngineParams) (thickness : ℚ) (s : OpenSheet)
    (np : NestedPart) (h : fitsOn P thickness s np = true) :
    0 ≤ np.x ∧ 0 ≤ np.y ∧ np.x + effWidth np ≤ s.width ∧
    newLengthAfter s np ≤ P.maxSheetLength ∧
    sheetWeightKg s.width (newLengthAfter s np) thickness ≤ P.rollWeightMax ∧
    ∀ q ∈ s.placed, sepKerf P.kerf np q := by
  unfold fitsOn at h
  simp only [Bool.and_eq_true, decide_eq_true_eq, List.all_eq_true] at h
  exact ⟨h.1.1.1.1.1, h.1.1.1.1.2, h.1.1.1.2, h.1.1.2, h.1.2, h.2⟩

theorem newLengthAfter_ge_length (s : OpenSheet) (np : NestedPart) :
    s.length ≤ newLengthAfter s np :=
  le_max_left _ _

theorem newLengthAfter_ge_part (s : OpenSheet) (np : NestedPart) :
    np.y + effLength np ≤ newLengthAfter s np := by
  unfold newLengthAfter sheetMargin
  rw [add_zero]
  exact le_max_right _ _

theorem place_good (P : EngineParams) (thickness w : ℚ) (pids : List String)
    (s : OpenSheet) (np : NestedPart) (hg : SheetGood P thickness w pids s)
    (hfit : fitsOn P thickness s np = true) (hpid : np.partId ∈ pids) :
    SheetGood P thickness w pids (place s np) := by
  obtain ⟨⟨hlen, hwt, hbnd, hpw⟩, hw, hpids⟩ := hg
  obtain ⟨hx, hy, hxw, hnl, hnwt, hsep⟩ := fitsOn_spec P thickness s np hfit
  refine ⟨⟨?_, ?_, ?_, ?_⟩, ?_, ?_⟩
  · exact hnl
  · exact hnwt
  · intro q hq
    rcases List.mem_cons.mp hq with h1 | h1
    · subst h1
      exact ⟨hx, hy, hxw, newLengthAfter_ge_part s q⟩
    · obtain ⟨h2, h3, h4, h5⟩ := hbnd q h1
      exact ⟨h2, h3, h4, h5.trans (newLengthAfter_ge_length s np)⟩
  · exact List.pairwise_cons.mpr ⟨hsep, hpw⟩
  · exact hw
  · intro q hq
    rcases List.mem_cons.mp hq with h1 | h1
    · subst h1
      exact hpid
    · exact hpids q h1

theorem allAttempts_fields (P : EngineParams) (s : OpenSheet) (inst : PartInst)
    (np : NestedPart) (h : np ∈ allAttempts P s inst) :
    np.partId = inst.pid ∧ np.width = inst.w ∧ np.length = inst.l := by
  unfold allAttempts placementsFor at h
  rcases List.mem_append.mp h with h1 | h1 <;>
  · rcases List.mem_map.mp h1 with ⟨pt, hpt, hdef⟩
    rw [← hdef]
    exact ⟨rfl, rfl, rfl⟩

theorem tryPlacePart_elim (P : EngineParams) (thickness : ℚ) (s : OpenSheet)
    (inst : PartInst) (s' : OpenSheet)
    (h : tryPlacePart P thickness s inst = some s') :
    ∃ np, fitsOn P thickness s np = true ∧ np ∈ allAttempts P s inst ∧
      s' = place s np := by
  unfold tryPlacePart at h
  cases hcb : chooseBest ((allAttempts P s inst).filter (fitsOn P thickness s)) with
  | none => rw [hcb] at h; exact absurd h (by simp)
  | some np =>
    rw [hcb] at h
    simp only [Option.some.injEq] at h
    have hmem : np ∈ (allAttempts P s inst).filter (fitsOn P thickness s) := by
      rcases chooseBest_mem _ none np hcb with h1 | h1
      · exact h1
      · exact absurd h1 (by simp)
    obtain ⟨hatt, hfit⟩ := List.mem_filter.mp hmem
    exact ⟨np, hfit, hatt, h.symm⟩

theorem tryPlacePart_good (P : EngineParams) (thickness w : ℚ)
    (pids : List String) (s : OpenSheet) (inst : PartInst) (s' : OpenSheet)
    (h : tryPlacePart P thickness s inst = some s')
    (hg : SheetGood P thickness w pids s) (hpid : inst.pid ∈ pids) :
    SheetGood P thickness w pids s' := by
  obtain ⟨np, hfit, hatt, hdef⟩ := tryPlacePart_elim P thickness s inst s' h
  subst hdef
  exact place_good P thickness w pids s np hg hfit
    ((allAttempts_fields P s inst np hatt).1 ▸ hpid)

theorem fillSheet_good (P : EngineParams) (thickness w : ℚ) (pids : List String) :
    ∀ (insts : List PartInst) (s : OpenSheet), SheetGood P thickness w pids s →
      (∀ i ∈ insts, i.pid ∈ pids) →
      SheetGood P thickness w pids (fillSheet P thickness s insts).1 ∧
      ∀ i ∈ (fillSheet P thickness s insts).2, i ∈ insts := by
  intro insts
  induction insts with
  | nil =>
    intro s hg hins
    exact ⟨hg, by simp [fillSheet]⟩
  | cons i rest ih =>
    intro s hg hins
    unfold fillSheet
    cases htp : tryPlacePart P thickness s i with
    | some s' =>
      have hg' := tryPlacePart_good P thickness w pids s i s' htp hg
        (hins i (List.mem_cons_self i rest))
      have hrest := ih s' hg' (fun j hj => hins j (List.mem_cons_of_mem i hj))
      exact ⟨hrest.1, fun j hj => List.mem_cons_of_mem i (hrest.2 j hj)⟩
    | none =>
      have hrest := ih s hg (fun j hj => hins j (List.mem_cons_of_mem i hj))
      refine ⟨hrest.1, ?_⟩
      intro j hj
      simp only at hj
      rcases List.mem_cons.mp hj with h1 | h1
      · exact h1 ▸ List.mem_cons_self i rest
      · exact List.mem_cons_of_mem i (hrest.2 j h1)

theorem newSheet_good (P : EngineParams) (thickness w : ℚ) (pids : List String)
    (hV : P.Valid) : SheetGood P thickness w pids ⟨w, 0, []⟩ := by
  obtain ⟨hmax, hkerf, hmin, hminmax⟩ := hV
  refine ⟨⟨le_of_lt hmax, ?_, by simp, List.Pairwise.nil⟩, rfl, by simp⟩
  have : sheetWeightKg w 0 thickness = 0 := by
    unfold sheetWeightKg
    ring
  rw [this]
  exact le_trans (le_of_lt hmin) hminmax

theorem packSheets_good (P : EngineParams) (thickness w : ℚ)
    (pids : List String) (hV : P.Valid) :
    ∀ (fuel : ℕ) (insts : List PartInst), (∀ i ∈ insts, i.pid ∈ pids) →
      (∀ s ∈ (packSheets P thickness w fuel insts).1,
        SheetGood P thickness w pids s) ∧
      ∀ i ∈ (packSheets P thickness w fuel insts).2, i ∈ insts := by
  intro fuel
  induction fuel with
  | zero =>
    intro insts hins
    exact ⟨by simp [packSheets], by simp [packSheets]⟩
  | succ fuel ih =>
    intro insts hins
    cases insts with
    | nil => exact ⟨by simp [packSheets], by simp [packSheets]⟩
    | cons i tl =>
      unfold packSheets
      have hfill := fillSheet_good P thickness w pids (i :: tl) ⟨w, 0, []⟩
        (newSheet_good P thickness w pids hV) hins
      by_cases hempty : (fillSheet P thickness ⟨w, 0, []⟩ (i :: tl)).1.placed.isEmpty
      · rw [if_pos hempty]
        have hrec := ih tl (fun j hj => hins j (List.mem_cons_of_mem i hj))
        refine ⟨by simpa using hrec.1, ?_⟩
        intro j hj
        simp only at hj
        rcases List.mem_cons.mp hj with h1 | h1
        · exact h1 ▸ List.mem_cons_self i tl
        · exact List.mem_cons_of_mem i (hrec.2 j h1)
      · rw [if_neg hempty]
        have hlo : ∀ j ∈ (fillSheet P thickness ⟨w, 0, []⟩ (i :: tl)).2, j.pid ∈ pids :=
          fun j hj => hins j (hfill.2 j hj)
        have hrec := ih (fillSheet P thickness ⟨w, 0, []⟩ (i :: tl)).2 hlo
        refine ⟨?_, fun j hj => hfill.2 j (hrec.2 j hj)⟩
        intro s hs
        simp only [List.mem_cons] at hs
        rcases hs with h1 | h1
        · exact h1 ▸ hfill.1
        · exact hrec.1 s h1

theorem selectWidth_elim_aux (P : EngineParams) (thickness : ℚ)
    (insts : List PartInst) :
    ∀ (l : List ℚ) (best : Option (ℚ × (List OpenSheet × List PartInst))),
      (∀ w r, best = some (w, r) → w ∈ P.candidateCoilWidths ∧
        r = packAtWidth P thickness w insts) →
      (∀ x ∈ l, x ∈ P.candidateCoilWidths) →
      ∀ w r, l.foldl (fun best w =>
          let r := packAtWidth P thickness w insts
          match best with
          | none => some (w, r)
          | some b => if wasteOf r.1 < wasteOf b.2.1 then some (w, r) else best)
          best = some (w, r) →
        w ∈ P.candidateCoilWidths ∧ r = packAtWidth P thickness w insts := by
  intro l
  induction l with
  | nil =>
    intro best hbest hmem w r h
    exact hbest w r h
  | cons x t ih =>
    intro best hbest hmem w r h
    refine ih _ ?_ (fun y hy => hmem y (List.mem_cons_of_mem x hy)) w r h
    intro w' r' hb
    cases best with
    | none =>
      simp only [Option.some.injEq, Prod.mk.injEq] at hb
      exact ⟨hb.1 ▸ hmem x (List.mem_cons_self x t), by rw [← hb.1, ← hb.2]⟩
    | some b =>
      simp only at hb
      by_cases hlt : wasteOf (packAtWidth P thickness x insts).1 < wasteOf b.2.1
      · rw [if_pos hlt] at hb
        simp only [Option.some.injEq, Prod.mk.injEq] at hb
        exact ⟨hb.1 ▸ hmem x (List.mem_cons_self x t), by rw [← hb.1, ← hb.2]⟩
      · rw [if_neg hlt] at hb
        exact hbest w' r' hb

theorem selectWidth_elim (P : EngineParams) (thickness : ℚ)
    (insts : List PartInst) (w : ℚ) (r : List OpenSheet × List PartInst)
    (h : selectWidth P thickness insts = some (w, r)) :
    w ∈ P.candidateCoilWidths ∧ r = packAtWidth P thickness w insts := by
  unfold selectWidth at h
  exact selectWidth_elim_aux P thickness insts P.candidateCoilWidths none
    (by simp) (fun x hx => hx) w r h

/-! #### Balancer preservation -/

theorem erase_good (P : EngineParams) (thickness w : ℚ) (pids : List String)
    (s : OpenSheet) (np : NestedPart) (hg : SheetGood P thickness w pids s) :
    SheetGood P thickness w pids { s with placed := s.placed.erase np } := by
  obtain ⟨⟨hlen, hwt, hbnd, hpw⟩, hw, hpids⟩ := hg
  have hsub : List.Sublist (s.placed.erase np) s.placed := List.erase_sublist np s.placed
  refine ⟨⟨hlen, hwt, ?_, hpw.sublist hsub⟩, hw, ?_⟩
  · intro q hq
    exact hbnd q (hsub.mem hq)
  · intro q hq
    exact hpids q (hsub.mem hq)

theorem tryMoveInto_elim (P : EngineParams) (thickness : ℚ) (target : OpenSheet) :
    ∀ (l : List NestedPart) (r : OpenSheet × NestedPart),
      tryMoveInto P thickness target l = some r →
      r.2 ∈ l ∧ tryPlacePart P thickness target (instOf r.2) = some r.1 := by
  intro l
  induction l with
  | nil =>
    intro r h
    exact absurd h (by simp [tryMoveInto])
  | cons np rest ih =>
    intro r h
    unfold tryMoveInto at h
    cases htp : tryPlacePart P thickness target (instOf np) with
    | some t' =>
      rw [htp] at h
      simp only [Option.some.injEq] at h
      rw [← h]
      exact ⟨List.mem_cons_self np rest, htp⟩
    | none =>
      rw [htp] at h
      obtain ⟨h1, h2⟩ := ih r h
      exact ⟨List.mem_cons_of_mem np h1, h2⟩

theorem fillFromLast_good (P : EngineParams) (thickness w w' : ℚ)
    (pids : List String) :
    ∀ (fuel : ℕ) (target last : OpenSheet),
      SheetGood P thickness w pids target → SheetGood P thickness w' pids last →
      SheetGood P thickness w pids (fillFromLast P thickness fuel target last).1 ∧
      SheetGood P thickness w' pids (fillFromLast P thickness fuel target last).2 := by
  intro fuel
  induction fuel with
  | zero =>
    intro target last hgt hgl
    exact ⟨hgt, hgl⟩
  | succ fuel ih =>
    intro target last hgt hgl
    unfold fillFromLast
    cases hmv : tryMoveInto P thickness target (last.placed.mergeSort areaDesc) with
    | none => exact ⟨hgt, hgl⟩
    | some r =>
      obtain ⟨hmem, htp⟩ := tryMoveInto_elim P thickness target _ r hmv
      have hnp_last : r.2 ∈ last.placed :=
        (List.mergeSort_perm last.placed areaDesc).mem_iff.mp hmem
      have hpid : (instOf r.2).pid ∈ pids := hgl.2.2 r.2 hnp_last
      have hgt' := tryPlacePart_good P thickness w pids target (instOf r.2) r.1
        htp hgt hpid
      have hgl' := erase_good P thickness w' pids last r.2 hgl
      exact ih r.1 { last with placed := last.placed.erase r.2 } hgt' hgl'

theorem balancePass_good (P : EngineParams) (thickness w w' : ℚ)
    (pids : List String) :
    ∀ (sheets : List OpenSheet) (last : OpenSheet),
      (∀ s ∈ sheets, SheetGood P thickness w pids s) →
      SheetGood P thickness w' pids last →
      (∀ s ∈ (balancePass P thickness sheets last).1,
        SheetGood P thickness w pids s) ∧
      SheetGood P thickness w' pids (balancePass P thickness sheets last).2.1 := by
  intro sheets
  induction sheets with
  | nil =>
    intro last hs hl
    exact ⟨by simp [balancePass], by simpa [balancePass] using hl⟩
  | cons s rest ih =>
    intro last hs hl
    unfold balancePass
    by_cases hu : utilizationOf s < P.targetUtilization
    · rw [if_pos hu]
      have hfl := fillFromLast_good P thickness w w' pids last.placed.length s last
        (hs s (List.mem_cons_self s rest)) hl
      have hrec := ih (fillFromLast P thickness last.placed.length s last).2
        (fun q hq => hs q (List.mem_cons_of_mem s hq)) hfl.2
      refine ⟨?_, hrec.2⟩
      intro q hq
      simp only [List.mem_cons] at hq
      rcases hq with h1 | h1
      · exact h1 ▸ hfl.1
      · exact hrec.1 q h1
    · rw [if_neg hu]
      have hrec := ih last (fun q hq => hs q (List.mem_cons_of_mem s hq)) hl
      refine ⟨?_, hrec.2⟩
      intro q hq
      simp only [List.mem_cons] at hq
      rcases hq with h1 | h1
      · exact h1 ▸ hs s (List.mem_cons_self s rest)
      · exact hrec.1 q h1

theorem balanceLoop_good (P : EngineParams) (thickness w w' : ℚ)
    (pids : List String) :
    ∀ (fuel : ℕ) (init : List OpenSheet) (last : OpenSheet),
      (∀ s ∈ init, SheetGood P thickness w pids s) →
      SheetGood P thickness w' pids last →
      (∀ s ∈ (balanceLoop P thickness fuel init last).1,
        SheetGood P thickness w pids s) ∧
      SheetGood P thickness w' pids (balanceLoop P thickness fuel init last).2 := by
  intro fuel
  induction fuel with
  | zero =>
    intro init last hs hl
    exact ⟨hs, hl⟩
  | succ fuel ih =>
    intro init last hs hl
    unfold balanceLoop
    have hbp := balancePass_good P thickness w w' pids init last hs hl
    by_cases hmoved : (balancePass P thickness init last).2.2
    · rw [if_pos hmoved]
      exact ih _ _ hbp.1 hbp.2
    · rw [if_neg hmoved]
      exact hbp

theorem balanceSheets_good (P : EngineParams) (thickness w : ℚ)
    (pids : List String) (sheets : List OpenSheet)
    (hs : ∀ s ∈ sheets, SheetGood P thickness w pids s) :
    ∀ s ∈ balanceSheets P thickness sheets, SheetGood P thickness w pids s := by
  unfold balanceSheets
  cases hrev : sheets.reverse with
  | nil => simp
  | cons last revInit =>
    intro s hsm
    have hsheets : sheets = revInit.reverse ++ [last] := by
      have := congrArg List.reverse hrev
      simpa using this
    have hinit : ∀ q ∈ revInit.reverse, SheetGood P thickness w pids q := by
      intro q hq
      exact hs q (by rw [hsheets]; exact List.mem_append.mpr (Or.inl hq))
    have hlast : SheetGood P thickness w pids last := by
      exact hs last (by rw [hsheets]; exact List.mem_append.mpr (Or.inr (by simp)))
    have hbl := balanceLoop_good P thickness w w pids (last.placed.length + 1)
      revInit.reverse last hinit hlast
    simp only at hsm
    rcases List.mem_append.mp hsm with h1 | h1
    · exact hbl.1 s h1
    · simp only [List.mem_singleton] at h1
      exact h1 ▸ hbl.2

/-! #### From sheets to layouts -/

/-- The pool of part ids the engine may place for a group: the ids of the
unit instances of its non-oversize parts. -/
def groupPids (g : MaterialGroup) : List String :=
  (expandInstances (g.parts.filter (fun ap => !ap.exceedsSheetLength))).map
    (fun i => i.pid)

theorem runGroup_fields (P : EngineParams) (g : MaterialGroup) :
    (runGroup P g).1.materialKey = g.materialKey ∧
    (runGroup P g).1.thickness = g.thickness ∧
    (runGroup P g).1.grade = g.grade := by
  unfold runGroup
  cases selectWidth P g.thickness
      (expandInstances (g.parts.filter (fun ap => !ap.exceedsSheetLength))) with
  | none => exact ⟨rfl, rfl, rfl⟩
  | some r => exact ⟨rfl, rfl, rfl⟩

theorem runGroup_layouts (P : EngineParams) (g : MaterialGroup) (hV : P.Valid) :
    ∀ l ∈ (runGroup P g).1.layouts,
      l.length ≤ P.maxSheetLength ∧
      l.width ∈ P.candidateCoilWidths ∧
      sheetWeightKg l.width l.length g.thickness ≤ P.rollWeightMax ∧
      (∀ np ∈ l.nestedParts, 0 ≤ np.x ∧ 0 ≤ np.y ∧
        np.x + effWidth np ≤ l.width ∧ np.y + effLength np ≤ l.length) ∧
      l.nestedParts.Pairwise (sepKerf P.kerf) ∧
      (∀ np ∈ l.nestedParts, np.partId ∈ groupPids g) := by
  intro l hl
  unfold runGroup at hl
  cases hsel : selectWidth P g.thickness
      (expandInstances (g.parts.filter (fun ap => !ap.exceedsSheetLength))) with
  | none =>
    rw [hsel] at hl
    simp at hl
  | some r =>
    rw [hsel] at hl
    obtain ⟨w, rr⟩ := r
    obtain ⟨hwmem, hpack⟩ := selectWidth_elim P g.thickness _ w rr hsel
    simp only at hl
    obtain ⟨i, hi, hdef⟩ := List.exists_of_mem_mapIdx hl
    set insts := expandInstances (g.parts.filter (fun ap => !ap.exceedsSheetLength))
      with hinsts
    have hpackgood := packSheets_good P g.thickness w (groupPids g) hV
      (insts.length + 1) insts (fun i hi => List.mem_map.mpr ⟨i, hi, rfl⟩)
    have hsheets : ∀ s ∈ rr.1, SheetGood P g.thickness w (groupPids g) s := by
      intro s hs
      apply hpackgood.1
      rw [hpack] at hs
      exact hs
    have hbal := balanceSheets_good P g.thickness w (groupPids g) rr.1 hsheets
    set balanced := balanceSheets P g.thickness rr.1 with hbalanced
    have hsmem : balanced[i] ∈ balanced := List.getElem_mem _
    obtain ⟨⟨hlen, hwt, hbnd, hpw⟩, hw, hpids⟩ := hbal balanced[i] hsmem
    have hfields : l.width = balanced[i].width ∧ l.length = balanced[i].length ∧
        l.nestedParts = balanced[i].placed.reverse := by
      rw [← hdef]
      exact ⟨rfl, rfl, rfl⟩
    obtain ⟨hfw, hfl, hfn⟩ := hfields
    refine ⟨?_, ?_, ?_, ?_, ?_, ?_⟩
    · rw [hfl]; exact hlen
    · rw [hfw, hw]; exact hwmem
    · rw [hfw, hfl]; exact hwt
    · intro np hnp
      rw [hfn] at hnp
      have := hbnd np (List.mem_reverse.mp hnp)
      rw [hfw, hfl]
      exact this
    · rw [hfn]
      rw [List.pairwise_reverse]
      exact hpw.imp (fun h => sepKerf_symm _ _ _ h)
    · intro np hnp
      rw [hfn] at hnp
      exact hpids np (List.mem_reverse.mp hnp)

theorem runGroup_minflag (P : EngineParams) (g : MaterialGroup) :
    ∀ l ∈ (runGroup P g).1.layouts.dropLast,
      P.rollWeightMin ≤ sheetWeightKg l.width l.length g.thickness ∨
      EngineWarning.subMinimumWeight g.materialKey l.sheetNumber ∈
        (runGroup P g).2 := by
  intro l hl
  unfold runGroup at hl ⊢
  split at hl
  · simp at hl
  · rename_i r hsel
    by_cases hwt : sheetWeightKg l.width l.length g.thickness < P.rollWeightMin
    · right
      refine List.mem_append.mpr (Or.inr ?_)
      refine List.mem_filterMap.mpr ⟨l, hl, ?_⟩
      rw [if_pos hwt]
    · exact Or.inl (le_of_not_lt hwt)

theorem model_resultsByGroup (parts : List Part) (P : EngineParams) :
    (runOptimizationModel parts P).result.resultsByGroup =
      (preprocessData parts P.maxSheetLength).map (fun g => (runGroup P g).1) := by
  unfold runOptimizationModel
  simp [List.map_map]

theorem model_warnings (parts : List Part) (P : EngineParams) :
    (runOptimizationModel parts P).warnings =
      ((preprocessData parts P.maxSheetLength).map (fun g => (runGroup P g).2)).flatten := by
  unfold runOptimizationModel
  simp [List.map_map]
  rfl

theorem model_group_warning_lift (parts : List Part) (P : EngineParams)
    (mg : MaterialGroup) (hmg : mg ∈ preprocessData parts P.maxSheetLength)
    (x : EngineWarning) (hx : x ∈ (runGroup P mg).2) :
    x ∈ (runOptimizationModel parts P).warnings := by
  rw [model_warnings]
  exact List.mem_flatten.mpr ⟨(runGroup P mg).2,
    List.mem_map.mpr ⟨mg, hmg, rfl⟩, hx⟩

/-! ### Claim theorems: sheet and placement invariants of the engine -/

/-- C2: every sheet of every engine result respects the length ceiling,
takes its width from the candidate set, stays within the maximum roll
weight, and every non-last sheet of a group either meets the minimum roll
weight or carries a sub-minimum-weight flag among the run's warnings. -/
theorem engine_sheets_within_limits (parts : List Part) (P : EngineParams)
    (hP : P.Valid) :
    ∀ gr ∈ (runOptimizationModel parts P).result.resultsByGroup,
      ∀ l ∈ gr.layouts,
        l.length ≤ P.maxSheetLength ∧
        l.width ∈ P.candidateCoilWidths ∧
        sheetWeightKg l.width l.length gr.thickness ≤ P.rollWeightMax ∧
        (l ∈ gr.layouts.dropLast →
          P.rollWeightMin ≤ sheetWeightKg l.width l.length gr.thickness ∨
          EngineWarning.subMinimumWeight gr.materialKey l.sheetNumber ∈
            (runOptimizationModel parts P).warnings) := by
  intro gr hgr l hl
  rw [model_resultsByGroup] at hgr
  rcases List.mem_map.mp hgr with ⟨mg, hmg, hdef⟩
  obtain ⟨hkey, hth, hgrade⟩ := runGroup_fields P mg
  have hth' : gr.thickness = mg.thickness := by rw [← hdef]; exact hth
  have hkey' : gr.materialKey = mg.materialKey := by rw [← hdef]; exact hkey
  have hl' : l ∈ (runGroup P mg).1.layouts := by rw [hdef]; exact hl
  obtain ⟨h1, h2, h3, h4, h5, h6⟩ := runGroup_layouts P mg hP l hl'
  refine ⟨h1, h2, by rw [hth']; exact h3, ?_⟩
  intro hdrop
  have hdrop' : l ∈ (runGroup P mg).1.layouts.dropLast := by rw [hdef]; exact hdrop
  rcases runGroup_minflag P mg l hdrop' with hmin | hwarn
  · left
    rw [hth']
    exact hmin
  · right
    rw [hkey']
    exact model_group_warning_lift parts P mg hmg _ hwarn

/-- Witness for C2 at the concrete demo input. -/
theorem engine_sheets_within_limits_witness :
    demoParams.Valid ∧
    (∀ gr ∈ (runOptimizationModel demoParts demoParams).result.resultsByGroup,
      ∀ l ∈ gr.layouts,
        l.length ≤ demoParams.maxSheetLength ∧
        l.width ∈ demoParams.candidateCoilWidths ∧
        sheetWeightKg l.width l.length gr.thickness ≤ demoParams.rollWeightMax ∧
        (l ∈ gr.layouts.dropLast →
          demoParams.rollWeightMin ≤ sheetWeightKg l.width l.length gr.thickness ∨
          EngineWarning.subMinimumWeight gr.materialKey l.sheetNumber ∈
            (runOptimizationModel demoParts demoParams).warnings)) :=
  ⟨by decide, engine_sheets_within_limits demoParts demoParams (by decide)⟩

/-- C3: on every sheet of every engine result, every placement lies inside
the sheet with nonnegative coordinates, and all placements are pairwise
kerf-separated (the kerf-inflated bounding boxes do not overlap). -/
theorem engine_placements_disjoint_inbounds (parts : List Part)
    (P : EngineParams) (hP : P.Valid) :
    ∀ gr ∈ (runOptimizationModel parts P).result.resultsByGroup,
      ∀ l ∈ gr.layouts,
        (∀ np ∈ l.nestedParts, 0 ≤ np.x ∧ 0 ≤ np.y ∧
          np.x + effWidth np ≤ l.width ∧ np.y + effLength np ≤ l.length) ∧
        l.nestedParts.Pairwise (sepKerf P.kerf) := by
  intro gr hgr l hl
  rw [model_resultsByGroup] at hgr
  rcases List.mem_map.mp hgr with ⟨mg, hmg, hdef⟩
  have hl' : l ∈ (runGroup P mg).1.layouts := by rw [hdef]; exact hl
  obtain ⟨h1, h2, h3, h4, h5, h6⟩ := runGroup_layouts P mg hP l hl'
  exact ⟨h4, h5⟩

/-- Witness for C3 at the concrete demo input. -/
theorem engine_placements_disjoint_inbounds_witness :
    demoParams.Valid ∧
    (∀ gr ∈ (runOptimizationModel demoParts demoParams).result.resultsByGroup,
      ∀ l ∈ gr.layouts,
        (∀ np ∈ l.nestedParts, 0 ≤ np.x ∧ 0 ≤ np.y ∧
          np.x + effWidth np ≤ l.width ∧ np.y + effLength np ≤ l.length) ∧
        l.nestedParts.Pairwise (sepKerf demoParams.kerf)) :=
  ⟨by decide, engine_placements_disjoint_inbounds demoParts demoParams (by decide)⟩



/-! ### Claim theorems: the grouping partition -/

/-- The first occurrences of a list, in order: the deduplication that keeps
the earliest copy of every value. -/
def firstOccurs {α : Type} [DecidableEq α] : List α → List α
  | [] => []
  | a :: l => a :: (firstOccurs l).filter (fun b => decide (b ≠ a))

theorem mem_firstOccurs {α : Type} [DecidableEq α] (x : α) :
    ∀ l : List α, x ∈ firstOccurs l ↔ x ∈ l := by
  intro l
  induction l with
  | nil => simp [firstOccurs]
  | cons a t ih =>
    unfold firstOccurs
    by_cases hx : x = a
    · subst hx
      simp
    · simp only [List.mem_cons, List.mem_filter, decide_eq_true_eq]
      constructor
      · intro h
        rcases h with h | ⟨h, -⟩
        · exact Or.inl h
        · exact Or.inr (ih.mp h)
      · intro h
        rcases h with h | h
        · exact Or.inl h
        · exact Or.inr ⟨ih.mpr h, hx⟩

theorem firstOccurs_nodup {α : Type} [DecidableEq α] :
    ∀ l : List α, (firstOccurs l).Nodup := by
  intro l
  induction l with
  | nil => simp [firstOccurs]
  | cons a t ih =>
    unfold firstOccurs
    refine List.Nodup.cons ?_ (ih.filter _)
    intro hmem
    have := (List.mem_filter.mp hmem).2
    simp at this

theorem firstOccurs_append_singleton {α : Type} [DecidableEq α] (a : α) :
    ∀ l : List α, firstOccurs (l ++ [a]) =
      firstOccurs l ++ (if a ∈ l then [] else [a]) := by
  intro l
  induction l with
  | nil => simp [firstOccurs]
  | cons b t ih =>
    show firstOccurs (b :: (t ++ [a])) = _
    unfold firstOccurs
    rw [ih, List.filter_append]
    by_cases hat : a ∈ t
    · rw [if_pos hat, if_pos (List.mem_cons_of_mem b hat)]
      simp
    · rw [if_neg hat]
      by_cases hab : a = b
      · rw [if_pos (by rw [hab]; exact List.mem_cons_self b t)]
        subst hab
        simp
      · rw [if_neg (by simp only [List.mem_cons]; push_neg; exact ⟨hab, hat⟩)]
        simp [hab]

theorem firstOccurs_map_inj {α β : Type} [DecidableEq α] [DecidableEq β]
    (f : α → β) (hf : Function.Injective f) :
    ∀ l : List α, firstOccurs (l.map f) = (firstOccurs l).map f := by
  intro l
  induction l with
  | nil => simp [firstOccurs]
  | cons a t ih =>
    show firstOccurs (f a :: t.map f) = _
    unfold firstOccurs
    rw [ih, List.filter_map]
    show _ :: List.map f (List.filter _ (firstOccurs t)) = _ :: List.map f (List.filter _ (firstOccurs t))
    congr 1
    congr 1
    apply List.filter_congr
    intro b hb
    simp only [Function.comp_apply]
    by_cases hba : b = a
    · subst hba
      simp
    · have : f b ≠ f a := fun he => hba (hf he)
      simp [hba, this]

/-- The invariant of the grouping fold: distinct keys, keys determined by
the groups' grade and thickness, every stored part annotated and keyed
consistently, the stored parts a permutation of the parts seen so far, and
the key sequence equal to the first occurrences of the seen keys. -/
def GroupsInv (maxSheetLength : ℚ) (seen : List Part) (acc : List MaterialGroup) : Prop :=
  (acc.map (fun g => g.materialKey)).Nodup ∧
  (∀ g ∈ acc, g.materialKey = materialKey g.grade g.thickness) ∧
  (∀ g ∈ acc, ∀ ap ∈ g.parts,
    materialKey ap.grade ap.thickness = g.materialKey ∧
    ap = annotatePart maxSheetLength ap.toPart) ∧
  ((acc.flatMap (fun g => g.parts)).map (fun ap => ap.toPart)).Perm seen ∧
  acc.map (fun g => g.materialKey) =
    firstOccurs (seen.map (fun p => materialKey p.grade p.thickness))

theorem flatMap_update_perm (k : String) (ap : AnnotPart) :
    ∀ acc : List MaterialGroup, (∃ g ∈ acc, g.materialKey = k) →
      (acc.map (fun g => g.materialKey)).Nodup →
      ((acc.map (fun g => if g.materialKey = k
          then { g with parts := g.parts ++ [ap] } else g)).flatMap
        (fun g => g.parts)).Perm ((acc.flatMap (fun g => g.parts)) ++ [ap]) := by
  intro acc
  induction acc with
  | nil =>
    intro hmem
    simp at hmem
  | cons g₀ rest ih =>
    intro hmem hnodup
    simp only [List.map_cons, List.nodup_cons] at hnodup
    by_cases hg₀ : g₀.materialKey = k
    · have hrest : (rest.map (fun g => if g.materialKey = k
          then { g with parts := g.parts ++ [ap] } else g)) = rest := by
        have : ∀ g ∈ rest, (if g.materialKey = k
            then { g with parts := g.parts ++ [ap] } else g) = g := by
          intro g hg
          rw [if_neg]
          intro hk
          exact hnodup.1 (by
            rw [hg₀, ← hk]
            exact List.mem_map.mpr ⟨g, hg, rfl⟩)
        rw [List.map_congr_left this]
        simp
      simp only [List.map_cons, if_pos hg₀, List.flatMap_cons, hrest]
      have : (g₀.parts ++ [ap]) ++ rest.flatMap (fun g => g.parts) =
          g₀.parts ++ ([ap] ++ rest.flatMap (fun g => g.parts)) := by
        simp [List.append_assoc]
      rw [this]
      have htgt : (g₀.parts ++ rest.flatMap (fun g => g.parts)) ++ [ap] =
          g₀.parts ++ (rest.flatMap (fun g => g.parts) ++ [ap]) := by
        simp [List.append_assoc]
      rw [htgt]
      exact List.Perm.append_left g₀.parts (List.perm_append_comm)
    · have hmem' : ∃ g ∈ rest, g.materialKey = k := by
        rcases hmem with ⟨g, hg, hk⟩
        rcases List.mem_cons.mp hg with h | h
        · exact absurd (h ▸ hk) hg₀
        · exact ⟨g, h, hk⟩
      have ihp := ih hmem' hnodup.2
      simp only [List.map_cons, if_neg hg₀, List.flatMap_cons]
      have htgt : (g₀.parts ++ rest.flatMap (fun g => g.parts)) ++ [ap] =
          g₀.parts ++ (rest.flatMap (fun g => g.parts) ++ [ap]) := by
        simp [List.append_assoc]
      rw [htgt]
      exact List.Perm.append_left g₀.parts ihp

theorem groupsInv_step (maxSheetLength : ℚ) (seen : List Part)
    (acc : List MaterialGroup) (p : Part) (h : GroupsInv maxSheetLength seen acc) :
    GroupsInv maxSheetLength (seen ++ [p]) (addPartToGroups maxSheetLength acc p) := by
  obtain ⟨hnodup, hkeys, hparts, hperm, hfo⟩ := h
  unfold addPartToGroups
  by_cases hany : acc.any (fun g => g.materialKey = materialKey p.grade p.thickness)
  · rw [if_pos hany]
    have hkmem : materialKey p.grade p.thickness ∈ acc.map (fun g => g.materialKey) := by
      rcases List.any_eq_true.mp hany with ⟨g, hg, hk⟩
      simp only [decide_eq_true_eq] at hk
      exact List.mem_map.mpr ⟨g, hg, hk⟩
    have hex : ∃ g ∈ acc, g.materialKey = materialKey p.grade p.thickness := by
      rcases List.mem_map.mp hkmem with ⟨g, hg, hk⟩
      exact ⟨g, hg, hk⟩
    have hkeep : (acc.map (fun g => if g.materialKey = materialKey p.grade p.thickness
        then { g with parts := g.parts ++ [annotatePart maxSheetLength p] } else g)).map
          (fun g => g.materialKey) = acc.map (fun g => g.materialKey) := by
      rw [List.map_map]
      apply List.map_congr_left
      intro g hg
      by_cases hk : g.materialKey = materialKey p.grade p.thickness
      · simp [hk]
      · simp [hk]
    refine ⟨?_, ?_, ?_, ?_, ?_⟩
    · rw [hkeep]; exact hnodup
    · intro g hg
      rcases List.mem_map.mp hg with ⟨g₀, hg₀, hgdef⟩
      by_cases hk : g₀.materialKey = materialKey p.grade p.thickness
      · rw [← hgdef, if_pos hk]
        exact hkeys g₀ hg₀
      · rw [← hgdef, if_neg hk]
        exact hkeys g₀ hg₀
    · intro g hg ap hap
      rcases List.mem_map.mp hg with ⟨g₀, hg₀, hgdef⟩
      by_cases hk : g₀.materialKey = materialKey p.grade p.thickness
      · rw [← hgdef, if_pos hk] at hap ⊢
        rcases List.mem_append.mp hap with h1 | h1
        · exact hparts g₀ hg₀ ap h1
        · simp only [List.mem_singleton] at h1
          subst h1
          exact ⟨hk.symm ▸ rfl, rfl⟩
      · rw [← hgdef, if_neg hk] at hap ⊢
        exact hparts g₀ hg₀ ap hap
    · have hupd := flatMap_update_perm (materialKey p.grade p.thickness)
        (annotatePart maxSheetLength p) acc hex hnodup
      have hmap := hupd.map (fun ap => ap.toPart)
      simp only [List.map_append] at hmap
      refine hmap.trans ?_
      exact List.Perm.append hperm (by simp [annotatePart])
    · have hseenk : materialKey p.grade p.thickness ∈
          seen.map (fun q => materialKey q.grade q.thickness) := by
        have hmemfo : materialKey p.grade p.thickness ∈
            firstOccurs (seen.map (fun q => materialKey q.grade q.thickness)) := by
          rw [← hfo]
          exact hkmem
        exact (mem_firstOccurs _ _).mp hmemfo
      rw [hkeep, List.map_append]
      simp only [List.map_cons, List.map_nil]
      rw [firstOccurs_append_singleton, if_pos hseenk, List.append_nil]
      exact hfo
  · rw [if_neg hany]
    have hknot : materialKey p.grade p.thickness ∉ acc.map (fun g => g.materialKey) := by
      intro hk
      rcases List.mem_map.mp hk with ⟨g, hg, hgk⟩
      exact hany (List.any_eq_true.mpr ⟨g, hg, by simp [hgk]⟩)
    refine ⟨?_, ?_, ?_, ?_, ?_⟩
    · rw [List.map_append]
      simp only [List.map_cons, List.map_nil]
      rw [List.nodup_append]
      refine ⟨hnodup, List.nodup_singleton _, ?_⟩
      intro x hx hx'
      simp only [List.mem_singleton] at hx'
      subst hx'
      exact hknot hx
    · intro g hg
      rcases List.mem_append.mp hg with h1 | h1
      · exact hkeys g h1
      · simp only [List.mem_singleton] at h1
        subst h1
        rfl
    · intro g hg ap hap
      rcases List.mem_append.mp hg with h1 | h1
      · exact hparts g h1 ap hap
      · simp only [List.mem_singleton] at h1
        subst h1
        simp only [List.mem_singleton] at hap
        subst hap
        exact ⟨rfl, rfl⟩
    · rw [List.flatMap_append]
      simp only [List.flatMap_cons, List.flatMap_nil, List.append_nil]
      rw [List.map_append]
      exact List.Perm.append hperm (by simp [annotatePart])
    · have hseenk : materialKey p.grade p.thickness ∉
          seen.map (fun q => materialKey q.grade q.thickness) := by
        intro hmem
        apply hknot
        rw [hfo]
        exact (mem_firstOccurs _ _).mpr hmem
      rw [List.map_append]
      simp only [List.map_cons, List.map_nil]
      rw [List.map_append]
      simp only [List.map_cons, List.map_nil]
      rw [firstOccurs_append_singleton, if_neg hseenk]
      rw [hfo]

theorem foldl_groupsInv (maxSheetLength : ℚ) :
    ∀ (parts seen : List Part) (acc : List MaterialGroup),
      GroupsInv maxSheetLength seen acc →
      GroupsInv maxSheetLength (seen ++ parts)
        (parts.foldl (addPartToGroups maxSheetLength) acc) := by
  intro parts
  induction parts with
  | nil =>
    intro seen acc h
    simpa using h
  | cons p rest ih =>
    intro seen acc h
    have h1 := groupsInv_step maxSheetLength seen acc p h
    have h2 := ih (seen ++ [p]) _ h1
    simpa [List.append_assoc] using h2

theorem groupByMaterial_inv (parts : List Part) (maxSheetLength : ℚ) :
    GroupsInv maxSheetLength parts (groupByMaterial parts maxSheetLength) := by
  have h0 : GroupsInv maxSheetLength [] [] := by
    refine ⟨List.nodup_nil, ?_, ?_, ?_, ?_⟩ <;> simp [firstOccurs]
  have h := foldl_groupsInv maxSheetLength parts [] [] h0
  simpa [groupByMaterial] using h

theorem preprocess_flatMap_perm (parts : List Part) (maxSheetLength : ℚ) :
    ((preprocessData parts maxSheetLength).flatMap (fun g => g.parts)).Perm
      ((groupByMaterial parts maxSheetLength).flatMap (fun g => g.parts)) := by
  unfold preprocessData
  generalize groupByMaterial parts maxSheetLength = gs
  induction gs with
  | nil => simp
  | cons g t ih =>
    simp only [List.map_cons, List.flatMap_cons]
    exact List.Perm.append (List.mergeSort_perm g.parts partLE) ih

/-- The key as a function of the (grade, thickness) pair. -/
def pairKey (pr : String × ℚ) : String := materialKey pr.1 pr.2

theorem pairKey_injective : Function.Injective pairKey := by
  intro a b h
  obtain ⟨h1, h2⟩ := materialKey_inj a.1 b.1 a.2 b.2 h
  exact Prod.ext h1 h2

/-- C4: the grouper partitions the validated parts into material groups
keyed by the (grade, thickness) pair — pairwise distinct pairs, in
first-occurrence order, every input part in exactly one group (the stored
parts are a permutation of the input) — and annotates every stored part
with its area and the oversize flag. -/
theorem preprocessData_partitions (parts : List Part) (maxSheetLength : ℚ) :
    ((preprocessData parts maxSheetLength).map (fun g => (g.grade, g.thickness))).Nodup ∧
    (preprocessData parts maxSheetLength).map (fun g => (g.grade, g.thickness)) =
      firstOccurs (parts.map (fun p => (p.grade, p.thickness))) ∧
    (((preprocessData parts maxSheetLength).flatMap (fun g => g.parts)).map
      (fun ap => ap.toPart)).Perm parts ∧
    ∀ g ∈ preprocessData parts maxSheetLength, ∀ ap ∈ g.parts,
      ap.grade = g.grade ∧ ap.thickness = g.thickness ∧
      ap.area = ap.width * ap.length ∧
      ap.exceedsSheetLength = decide (ap.length > maxSheetLength) := by
  obtain ⟨hnodup, hkeys, hparts, hperm, hfo⟩ :=
    groupByMaterial_inv parts maxSheetLength
  have hpairpre : (preprocessData parts maxSheetLength).map
      (fun g => (g.grade, g.thickness)) =
      (groupByMaterial parts maxSheetLength).map (fun g => (g.grade, g.thickness)) := by
    unfold preprocessData
    rw [List.map_map]
    apply List.map_congr_left
    intro g hg
    rfl
  have hkeypre : (groupByMaterial parts maxSheetLength).map (fun g => g.materialKey) =
      ((groupByMaterial parts maxSheetLength).map
        (fun g => (g.grade, g.thickness))).map pairKey := by
    rw [List.map_map]
    apply List.map_congr_left
    intro g hg
    exact hkeys g hg
  have hpartkeys : parts.map (fun p => materialKey p.grade p.thickness) =
      (parts.map (fun p => (p.grade, p.thickness))).map pairKey := by
    rw [List.map_map]
    rfl
  have hpairs : (groupByMaterial parts maxSheetLength).map
      (fun g => (g.grade, g.thickness)) =
      firstOccurs (parts.map (fun p => (p.grade, p.thickness))) := by
    apply (List.map_injective_iff.mpr pairKey_injective)
    rw [← hkeypre, hfo, hpartkeys]
    exact firstOccurs_map_inj pairKey pairKey_injective _
  refine ⟨?_, ?_, ?_, ?_⟩
  · rw [hpairpre, hpairs]
    exact firstOccurs_nodup _
  · rw [hpairpre, hpairs]
  · exact ((preprocess_flatMap_perm parts maxSheetLength).map _).trans hperm
  · intro g hg ap hap
    unfold preprocessData at hg
    rcases List.mem_map.mp hg with ⟨g₀, hg₀, hgdef⟩
    have hapg₀ : ap ∈ g₀.parts := by
      rw [← hgdef] at hap
      exact (List.mergeSort_perm g₀.parts partLE).mem_iff.mp hap
    obtain ⟨hk, hannot⟩ := hparts g₀ hg₀ ap hapg₀
    have hkeq : materialKey ap.grade ap.thickness =
        materialKey g₀.grade g₀.thickness := by
      rw [hk]
      exact hkeys g₀ hg₀
    obtain ⟨hgr, hth⟩ := materialKey_inj _ _ _ _ hkeq
    have hgfields : g.grade = g₀.grade ∧ g.thickness = g₀.thickness := by
      rw [← hgdef]
      exact ⟨rfl, rfl⟩
    refine ⟨by rw [hgfields.1]; exact hgr, by rw [hgfields.2]; exact hth, ?_, ?_⟩
    · have := congrArg AnnotPart.area hannot
      simpa [annotatePart] using this
    · have := congrArg AnnotPart.exceedsSheetLength hannot
      simpa [annotatePart] using this

/-- Witness for C4 at the concrete demo input. -/
theorem preprocessData_partitions_witness :
    ((preprocessData demoParts 18000).map (fun g => (g.grade, g.thickness))).Nodup ∧
    (preprocessData demoParts 18000).map (fun g => (g.grade, g.thickness)) =
      firstOccurs (demoParts.map (fun p => (p.grade, p.thickness))) ∧
    (((preprocessData demoParts 18000).flatMap (fun g => g.parts)).map
      (fun ap => ap.toPart)).Perm demoParts ∧
    ∀ g ∈ preprocessData demoParts 18000, ∀ ap ∈ g.parts,
      ap.grade = g.grade ∧ ap.thickness = g.thickness ∧
      ap.area = ap.width * ap.length ∧
      ap.exceedsSheetLength = decide (ap.length > (18000 : ℚ)) :=
  preprocessData_partitions demoParts 18000

unseal Rat.mul in
/-- Witness for C5 at the concrete demo input (its single group). -/
theorem groups_sorted_stably_witness :
    (groupByMaterial demoParts 18000).headI ∈ groupByMaterial demoParts 18000 ∧
    (sortGroupParts ((groupByMaterial demoParts 18000).headI) ∈
        preprocessData demoParts 18000 ∧
      (sortGroupParts ((groupByMaterial demoParts 18000).headI)).parts.Pairwise
        PartDescOrder ∧
      (sortGroupParts ((groupByMaterial demoParts 18000).headI)).parts.Perm
        ((groupByMaterial demoParts 18000).headI).parts ∧
      (∀ a b : AnnotPart, partLE a b = true →
        List.Sublist [a, b] (((groupByMaterial demoParts 18000).headI).parts) →
        List.Sublist [a, b] ((sortGroupParts ((groupByMaterial demoParts 18000).headI)).parts))) :=
  ⟨by decide, groups_sorted_stably demoParts 18000 _ (by decide)⟩

/-! ### The CSV exporter (src/services/exportService.ts) -/

/-- A CSV cell wrapped in double quotes, as the exporter writes string
cells. -/
def csvQuote (s : String) : String := "\"" ++ s ++ "\""

/-- Rendering of a numeric cell. -/
def ratCell (q : ℚ) : String := String.mk (ratChars q)

/-- Fixed-point rendering with two decimals, as used for the waste
percentage cell. -/
def toFixed2 (q : ℚ) : String :=
  let c : ℤ := round (q * 100)
  let a := c.natAbs
  (if c < 0 then ("-") else ("")) ++ String.mk (natChars (a / 100)) ++ "." ++
    (if a % 100 < 10 then ("0") else ("")) ++ String.mk (natChars (a % 100))

/-- The header row of the CSV export. -/
def csvHeader : String :=
  String.intercalate (",")
    ["Material Group", "Thickness (mm)", "Grade",
     "Sheet Number", "Sheet Width (mm)", "Sheet Length (mm)",
     "Part ID", "Part Width (mm)", "Part Length (mm)",
     "X", "Y", "Rotated", "Sheet Waste %"]

/-- One data row of the CSV export: the thirteen cells the exporter writes
for one placed part, joined by commas (string cells quoted, zero put in for
a missing part width or length, the rotated flag as TRUE or FALSE, the
waste percentage with two decimals). -/
def csvRow (g : OptimizationGroupResult) (l : SheetLayout) (p : NestedPart) :
    String :=
  String.intercalate (",")
    [csvQuote g.materialKey,
     ratCell g.thickness,
     csvQuote g.grade,
     String.mk (natChars l.sheetNumber),
     ratCell l.width,
     ratCell l.length,
     csvQuote p.partId,
     ratCell (if p.width = 0 then 0 else p.width),
     ratCell (if p.length = 0 then 0 else p.length),
     ratCell p.x,
     ratCell p.y,
     (if p.rotated then ("TRUE") else ("FALSE")),
     toFixed2 l.wastePercentage]

/-- The rows the CSV exporter builds: the header first, then one row pushed
per nested part, walking groups, layouts and parts in result order
(mirroring the nested forEach loops of the source). -/
def exportToCsvRows (r : OptimizationResult) : List String :=
  r.resultsByGroup.foldl (fun acc g =>
    g.layouts.foldl (fun acc l =>
      l.nestedParts.foldl (fun acc p => acc ++ [csvRow g l p]) acc) acc)
    [csvHeader]

theorem csv_foldl_parts (g : OptimizationGroupResult) (l : SheetLayout) :
    ∀ (ps : List NestedPart) (acc : List String),
      ps.foldl (fun acc p => acc ++ [csvRow g l p]) acc =
        acc ++ ps.map (csvRow g l) := by
  intro ps
  induction ps with
  | nil => intro acc; simp
  | cons p t ih =>
    intro acc
    simp only [List.foldl_cons, List.map_cons]
    rw [ih]
    simp

theorem csv_foldl_layouts (g : OptimizationGroupResult) :
    ∀ (ls : List SheetLayout) (acc : List String),
      ls.foldl (fun acc l =>
        l.nestedParts.foldl (fun acc p => acc ++ [csvRow g l p]) acc) acc =
        acc ++ ls.flatMap (fun l => l.nestedParts.map (csvRow g l)) := by
  intro ls
  induction ls with
  | nil => intro acc; simp
  | cons l t ih =>
    intro acc
    simp only [List.foldl_cons, List.flatMap_cons]
    rw [csv_foldl_parts, ih]
    simp

theorem csv_foldl_groups :
    ∀ (gs : List OptimizationGroupResult) (acc : List String),
      gs.foldl (fun acc g =>
        g.layouts.foldl (fun acc l =>
          l.nestedParts.foldl (fun acc p => acc ++ [csvRow g l p]) acc) acc) acc =
        acc ++ gs.flatMap (fun g =>
          g.layouts.flatMap (fun l => l.nestedParts.map (csvRow g l))) := by
  intro gs
  induction gs with
  | nil => intro acc; simp
  | cons g t ih =>
    intro acc
    simp only [List.foldl_cons, List.flatMap_cons]
    rw [csv_foldl_layouts, ih]
    simp

/-- C9: the CSV exporter emits the header and then exactly one data row per
placed part, over all groups and sheets in result order; the number of data
rows is the total number of placed parts. -/
theorem exportToCsv_one_row_per_part (r : OptimizationResult) :
    exportToCsvRows r = csvHeader ::
      r.resultsByGroup.flatMap (fun g =>
        g.layouts.flatMap (fun l => l.nestedParts.map (csvRow g l))) ∧
    (exportToCsvRows r).length = 1 +
      (r.resultsByGroup.map (fun g =>
        (g.layouts.map (fun l => l.nestedParts.length)).sum)).sum := by
  have heq : exportToCsvRows r = csvHeader ::
      r.resultsByGroup.flatMap (fun g =>
        g.layouts.flatMap (fun l => l.nestedParts.map (csvRow g l))) := by
    unfold exportToCsvRows
    rw [csv_foldl_groups]
    simp
  refine ⟨heq, ?_⟩
  rw [heq]
  simp only [List.length_cons, List.length_flatMap, List.length_map, List.map_map]
  have hmap : List.map (List.length ∘ fun g =>
        g.layouts.flatMap fun l => List.map (csvRow g l) l.nestedParts)
        r.resultsByGroup =
      List.map (fun g => (List.map (fun l => l.nestedParts.length) g.layouts).sum)
        r.resultsByGroup := by
    apply List.map_congr_left
    intro g hg
    simp only [Function.comp_apply, List.length_flatMap, List.map_map]
    apply congrArg
    apply List.map_congr_left
    intro l hl
    simp
  rw [hmap]
  omega

/-! ### Claim theorems: oversize parts -/

theorem preprocess_parts_fields (parts : List Part) (maxSheetLength : ℚ) :
    ∀ g ∈ preprocessData parts maxSheetLength, ∀ ap ∈ g.parts,
      ap.toPart ∈ parts ∧ ap = annotatePart maxSheetLength ap.toPart := by
  obtain ⟨hnodup, hkeys, hparts, hperm, hfo⟩ :=
    groupByMaterial_inv parts maxSheetLength
  intro g hg ap hap
  unfold preprocessData at hg
  rcases List.mem_map.mp hg with ⟨g₀, hg₀, hgdef⟩
  have hapg₀ : ap ∈ g₀.parts := by
    rw [← hgdef] at hap
    exact (List.mergeSort_perm g₀.parts partLE).mem_iff.mp hap
  refine ⟨?_, (hparts g₀ hg₀ ap hapg₀).2⟩
  have h1 : ap ∈ (groupByMaterial parts maxSheetLength).flatMap (fun g => g.parts) :=
    List.mem_flatMap.mpr ⟨g₀, hg₀, hapg₀⟩
  have h2 : ap.toPart ∈ ((groupByMaterial parts maxSheetLength).flatMap
      (fun g => g.parts)).map (fun x => x.toPart) :=
    List.mem_map.mpr ⟨ap, h1, rfl⟩
  exact hperm.mem_iff.mp h2

theorem preprocess_covers (parts : List Part) (maxSheetLength : ℚ) (p : Part)
    (hp : p ∈ parts) :
    ∃ g ∈ preprocessData parts maxSheetLength, ∃ ap ∈ g.parts, ap.toPart = p := by
  obtain ⟨hnodup, hkeys, hparts, hperm, hfo⟩ :=
    groupByMaterial_inv parts maxSheetLength
  have hp' : p ∈ ((groupByMaterial parts maxSheetLength).flatMap
      (fun g => g.parts)).map (fun x => x.toPart) := hperm.mem_iff.mpr hp
  rcases List.mem_map.mp hp' with ⟨ap, hap, hdef⟩
  rcases List.mem_flatMap.mp hap with ⟨g₀, hg₀, hapg₀⟩
  refine ⟨sortGroupParts g₀, List.mem_map.mpr ⟨g₀, hg₀, rfl⟩, ap, ?_, hdef⟩
  show ap ∈ (g₀.parts.mergeSort partLE)
  exact (List.mergeSort_perm g₀.parts partLE).mem_iff.mpr hapg₀

theorem mem_expandInstances (l : List AnnotPart) (i : PartInst) :
    i ∈ expandInstances l ↔ ∃ ap ∈ l, ap.quantity.num.toNat ≠ 0 ∧
      i = ⟨ap.id, ap.width, ap.length⟩ := by
  unfold expandInstances
  rw [List.mem_flatMap]
  constructor
  · rintro ⟨ap, hap, hrep⟩
    rw [List.mem_replicate] at hrep
    exact ⟨ap, hap, hrep.1, hrep.2⟩
  · rintro ⟨ap, hap, hq, hdef⟩
    exact ⟨ap, hap, List.mem_replicate.mpr ⟨hq, hdef⟩⟩

/-- C7: an input part whose length exceeds the length ceiling is flagged
oversize by the preprocessor, its id is reported as an unplaceable-part
warning on the run's result, and it never appears among the placements of
any sheet of any group. -/
theorem oversize_flagged_and_excluded (parts : List Part) (P : EngineParams)
    (p : Part) (hP : P.Valid) (hids : (parts.map (fun q => q.id)).Nodup)
    (hp : p ∈ parts) (hlen : p.length > P.maxSheetLength)
    (hq : p.quantity.num.toNat ≠ 0) :
    (∀ g ∈ preprocessData parts P.maxSheetLength, ∀ ap ∈ g.parts,
      ap.id = p.id → ap.exceedsSheetLength = true) ∧
    EngineWarning.unplaceablePart p.id ∈ (runOptimizationModel parts P).warnings ∧
    (∀ gr ∈ (runOptimizationModel parts P).result.resultsByGroup,
      ∀ l ∈ gr.layouts, ∀ np ∈ l.nestedParts, np.partId ≠ p.id) := by
  have hflag : ∀ g ∈ preprocessData parts P.maxSheetLength, ∀ ap ∈ g.parts,
      ap.id = p.id → ap.exceedsSheetLength = true := by
    intro g hg ap hap hid
    obtain ⟨hmem, hannot⟩ := preprocess_parts_fields parts P.maxSheetLength g hg ap hap
    have hsame : ap.toPart = p :=
      List.inj_on_of_nodup_map hids hmem hp hid
    have hex : ap.exceedsSheetLength =
        decide (ap.toPart.length > P.maxSheetLength) :=
      congrArg AnnotPart.exceedsSheetLength hannot
    rw [hex, hsame]
    exact decide_eq_true hlen
  refine ⟨hflag, ?_, ?_⟩
  · obtain ⟨g, hg, ap, hap, hdef⟩ := preprocess_covers parts P.maxSheetLength p hp
    have hpid : ap.id = p.id := congrArg Part.id hdef
    have hexc : ap.exceedsSheetLength = true := hflag g hg ap hap hpid
    have hover : ap ∈ g.parts.filter (fun x => x.exceedsSheetLength) :=
      List.mem_filter.mpr ⟨hap, hexc⟩
    have hqa : ap.quantity.num.toNat ≠ 0 := by
      have : ap.quantity = p.quantity := congrArg Part.quantity hdef
      rw [this]
      exact hq
    have hinst : (⟨ap.id, ap.width, ap.length⟩ : PartInst) ∈
        expandInstances (g.parts.filter (fun x => x.exceedsSheetLength)) :=
      (mem_expandInstances _ _).mpr ⟨ap, hover, hqa, rfl⟩
    have hw : EngineWarning.unplaceablePart ap.id ∈ oversizeWarningsOf g :=
      List.mem_map.mpr ⟨_, hinst, rfl⟩
    have hw2 : EngineWarning.unplaceablePart ap.id ∈ (runGroup P g).2 := by
      unfold runGroup
      split
      · exact hw
      · exact List.mem_append.mpr (Or.inl (List.mem_append.mpr (Or.inl hw)))
    rw [hpid] at hw2
    exact model_group_warning_lift parts P g hg _ hw2
  · intro gr hgr l hl np hnp heq
    rw [model_resultsByGroup] at hgr
    rcases List.mem_map.mp hgr with ⟨mg, hmg, hdefgr⟩
    have hl' : l ∈ (runGroup P mg).1.layouts := by rw [hdefgr]; exact hl
    have h6 := (runGroup_layouts P mg hP l hl').2.2.2.2.2 np hnp
    rcases List.mem_map.mp h6 with ⟨i, hi, hipid⟩
    rcases (mem_expandInstances _ i).mp hi with ⟨ap', hap', hq', hidef⟩
    obtain ⟨hap'm, hexcfalse⟩ := List.mem_filter.mp hap'
    have hid' : ap'.id = p.id := by
      have h1 : i.pid = ap'.id := by rw [hidef]
      rw [← h1, hipid, heq]
    have hexcT := hflag mg hmg ap' hap'm hid'
    rw [hexcT] at hexcfalse
    simp at hexcfalse

/-- Witness for C7 at the concrete mixed input (the oversize part). -/
theorem oversize_flagged_and_excluded_witness :
    demoParams.Valid ∧ (mixedParts.map (fun q => q.id)).Nodup ∧
    oversizePart ∈ mixedParts ∧
    oversizePart.length > demoParams.maxSheetLength ∧
    oversizePart.quantity.num.toNat ≠ 0 ∧
    ((∀ g ∈ preprocessData mixedParts demoParams.maxSheetLength, ∀ ap ∈ g.parts,
        ap.id = oversizePart.id → ap.exceedsSheetLength = true) ∧
      EngineWarning.unplaceablePart oversizePart.id ∈
        (runOptimizationModel mixedParts demoParams).warnings ∧
      (∀ gr ∈ (runOptimizationModel mixedParts demoParams).result.resultsByGroup,
        ∀ l ∈ gr.layouts, ∀ np ∈ l.nestedParts, np.partId ≠ oversizePart.id)) :=
  ⟨by decide, by decide, by decide, by decide, by decide,
    oversize_flagged_and_excluded mixedParts demoParams oversizePart
      (by decide) (by decide) (by decide) (by decide) (by decide)⟩

end Nesting
